import Mathlib

/-!
Shallow embedding of `bibnorm.py`, a BibTeX normalization tool, together with
proofs about its entry scanner, attribute splitter, attribute normalizer,
serializer and citation filter.  Strings are modelled as `List Char`; Python
operations (`str.strip`, `str.split`, slicing, `str.find`, dict updates) are
translated one by one.  Fallible code paths (Python exceptions) are modelled
with `Except`.
-/

namespace Bibnorm

/-- Python whitespace, as used by `str.strip()` and `str.split()`. -/
def pyIsSpace (c : Char) : Bool :=
  c = ' ' || c = '\t' || c = '\n' || c = '\r' || c = '\x0b' || c = '\x0c'

/-- Python `str.strip()`: remove leading and trailing whitespace. -/
def pyStrip (s : List Char) : List Char :=
  ((s.dropWhile pyIsSpace).reverse.dropWhile pyIsSpace).reverse

/-- Python `str.split(sep)` for a single-character separator: split at every
occurrence, keeping empty pieces; the result is always nonempty. -/
def pySplit (sep : Char) : List Char → List (List Char)
  | [] => [[]]
  | c :: rest =>
    if c = sep then [] :: pySplit sep rest
    else
      match pySplit sep rest with
      | [] => [[c]]
      | p :: ps => (c :: p) :: ps

/-- Python `str.split()` with no argument: whitespace-separated words, with no
empty words.  `acc` holds the characters of the current word, reversed. -/
def pyWordsAux : List Char → List Char → List (List Char)
  | acc, [] => if acc = [] then [] else [acc.reverse]
  | acc, c :: rest =>
    if pyIsSpace c then
      if acc = [] then pyWordsAux [] rest else acc.reverse :: pyWordsAux [] rest
    else pyWordsAux (c :: acc) rest

def pyWords (s : List Char) : List (List Char) := pyWordsAux [] s

/-- Python `" ".join(s.split())`: collapse internal whitespace runs. -/
def collapseWS (s : List Char) : List Char := List.intercalate [' '] (pyWords s)

/-- `str.lower()` (ASCII). -/
def lowerL (s : List Char) : List Char := s.map Char.toLower

/-- Python `str.capitalize()`: first character upper-cased, the rest lower-cased. -/
def pyCapitalize : List Char → List Char
  | [] => []
  | c :: rest => c.toUpper :: rest.map Char.toLower

/-- `string.capwords(s)`: `" ".join(x.capitalize() for x in s.split())`. -/
def capwords (s : List Char) : List Char :=
  List.intercalate [' '] ((pyWords s).map pyCapitalize)

/-- Python `str.isupper()` (ASCII): at least one letter and no lowercase letter. -/
def pyIsUpper (s : List Char) : Bool :=
  s.any (fun c => c.isAlpha) && !(s.any (fun c => c.isLower))

/-- Python `str.find(c)` for a single character, as an `Option` (`-1` ↦ `none`). -/
def pyFind (c : Char) (s : List Char) : Option Nat := s.findIdx? (· = c)

/-- Python slice `s[a:b]` for `0 ≤ a ≤ b`. -/
def slice (s : List Char) (a b : Nat) : List Char := (s.take b).drop a

/-- Python substring test `needle in hay`. -/
def isSubstrOf (needle hay : List Char) : Bool :=
  (List.range (hay.length + 1)).any (fun i => (hay.drop i).take needle.length == needle)

/-- Python `int(s)` success predicate: optional surrounding whitespace, optional
sign, then digits with single underscores allowed between digits. -/
def intTail : List Char → Bool
  | [] => true
  | '_' :: [] => false
  | '_' :: c :: rest => c.isDigit && intTail rest
  | c :: rest => c.isDigit && intTail rest

def pyIntOK (s : List Char) : Bool :=
  let t := pyStrip s
  let t := match t with
           | '+' :: r => r
           | '-' :: r => r
           | r => r
  match t with
  | [] => false
  | c :: rest => c.isDigit && intTail rest

/-! ## Static tables of `bibnorm.py` -/

def CATEGORIES : List (List Char) :=
  ["article", "book", "booklet", "inbook", "incollection", "inproceedings",
   "manual", "mastersthesis", "phdthesis", "misc", "techreport",
   "unpublished"].map String.data

/-- Attribute serialization order. -/
def ATTRIBUTES : List (List Char) :=
  ["author", "title", "journal", "booktitle", "institution", "school", "key",
   "year", "month", "series", "volume", "number", "pages", "publisher",
   "edition", "note", "howpublished", "url"].map String.data

def ATTRIBUTES_DROP : List (List Char) :=
  ["location", "address", "organization", "ee", "doi", "crossref",
   "bibsource", "isbn", "issn", "acmid", "numpages", "issue_date",
   "keywords"].map String.data

/-- `ATTR_ONLY_IN` check: `category not in ATTR_ONLY_IN[attribute]` means drop.
For `"url"` the table holds the plain string `"misc"`, so Python's `in` is a
substring test; for `"publisher"` it holds a tuple, so `in` is membership. -/
def attrOnlyInOK (attrName category : List Char) : Bool :=
  if attrName = "url".data then isSubstrOf category "misc".data
  else if attrName = "publisher".data then
    ["article", "book", "inbook", "incollection"].map String.data |>.contains category
  else true

/-- `SYNTAX_CORRECTION_MONTH = {"Jnu": "Jun"}` applied to a three-letter prefix. -/
def correctMonth3 (m3 : List Char) : List Char :=
  if m3 = "Jnu".data then "Jun".data else m3

def MONTHS_ABBREV : List (List Char) :=
  ["Jan", "Feb", "Mar", "Apr", "May", "Jun", "Jul", "Aug", "Sep", "Oct",
   "Nov", "Dec"].map String.data

def MONTHS_FULL : List (List Char) :=
  ["January", "February", "March", "April", "May", "June", "July", "August",
   "September", "October", "November", "December"].map String.data

/-- `datetime.strptime(m3, "%b")`: case-insensitive abbreviated month name. -/
def parseMonthIdx (s : List Char) : Option Nat :=
  MONTHS_ABBREV.findIdx? (fun a => lowerL a = lowerL s)

/-! ## Error and diagnostic kinds -/

/-- Python exceptions that can escape the translated code. -/
inductive PErr
  | parsedEntry | dropComment | bracketNotMatch | indexError | keyError
  | monthParse
  deriving DecidableEq, Repr

/-- Logger diagnostics (`logger.info` / `logger.warn` / `logger.warning`). -/
inductive Diag
  | unmatchedBracket | dropUnknownAttr | allUpper | noTitle | noteOverwrite
  | pagesFormat | intFormat
  deriving DecidableEq, Repr

/-! ## The attribute splitter (`process_entry` step 3) -/

/-- The quote-parity loop: `for piece in pieces[:-1]: if piece[-1] != "\\":
quotecnt += 1`, where `piece[-1]` on an empty piece raises `IndexError`
(modelled as `none`).  The argument is already `pieces[:-1]`. -/
def scanPieces : List (List Char) → Option Nat
  | [] => some 0
  | piece :: rest =>
    match piece.getLast? with
    | none => none
    | some c => (scanPieces rest).map (fun n => if c = '\\' then n else n + 1)

/-- Decision taken for one accumulated segment: `some true` = flush it as a
complete attribute segment, `some false` = keep accumulating, `none` =
`IndexError` in the quote scan.  The quote scan runs only when the brace
counts agree, exactly as in the source. -/
def sepOK (seg : List Char) : Option Bool :=
  if seg.count '{' = seg.count '}' then
    match scanPieces ((pySplit '"' seg).dropLast) with
    | none => none
    | some n => some (n % 2 = 0)
  else some false

/-- One iteration of the accumulation loop over the raw comma-split pieces. -/
def mergeStep (st : List (List Char) × List Char) (item : List Char) :
    Except PErr (List (List Char) × List Char) :=
  let (segs, cur) := st
  let merged := if cur = [] then item else cur ++ ", ".data ++ item
  match sepOK merged with
  | none => .error .indexError
  | some true => .ok (segs ++ [merged], [])
  | some false => .ok (segs, merged)

/-- The whole accumulation loop: returns the flushed segments and the leftover
(`attr_merged_seg` at loop exit). -/
def mergeSegs (pieces : List (List Char)) :
    Except PErr (List (List Char) × List Char) :=
  pieces.foldlM mergeStep ([], [])

/-! ## The attribute map (`final_attrs` dict) -/

/-- `final_attrs`: an association list with unique keys (insertion order). -/
abbrev AttrMap := List (List Char × List Char)

def lookupA (k : List Char) : AttrMap → Option (List Char)
  | [] => none
  | (k', v) :: rest => if k' = k then some v else lookupA k rest

def containsA (k : List Char) (m : AttrMap) : Bool := (lookupA k m).isSome

/-- `m[k] = v`: overwrite in place if present, else append. -/
def insertA (k v : List Char) : AttrMap → AttrMap
  | [] => [(k, v)]
  | (k', v') :: rest =>
    if k' = k then (k, v) :: rest else (k', v') :: insertA k v rest

/-- `m.pop(k)`, the removal part. -/
def eraseA (k : List Char) : AttrMap → AttrMap
  | [] => []
  | (k', v') :: rest => if k' = k then rest else (k', v') :: eraseA k rest

/-! ## Attribute extraction (`process_entry` step 4) -/

/-- The quote/bracket unwrapping: `if value[0] == '"' or value[0] == "{":
value = value[1:-1].strip()`.  Only the first character is inspected; the last
character is removed unconditionally in that branch. -/
def unwrapValue : List Char → List Char
  | [] => []
  | c :: rest => if c = '"' ∨ c = '{' then pyStrip rest.dropLast else c :: rest

/-- `attrline[:eq_index]` and `attrline[eq_index+1:]` where
`eq_index = attrline.find("=")`; with no `=`, Python's `-1` yields
`attrline[:-1]` and the whole string. -/
def eqSplitOf (attrline : List Char) : List Char × List Char :=
  match pyFind '=' attrline with
  | some i => (attrline.take i, attrline.drop (i + 1))
  | none => (attrline.dropLast, attrline)

/-- One iteration of the attribute-extraction loop (`for attrline in attrs`),
acting on the accumulated map and diagnostics. -/
def stepAttr (category : List Char) (st : AttrMap × List Diag)
    (attrline0 : List Char) : Except PErr (AttrMap × List Diag) :=
  let m := st.1
  let ds := st.2
  let attrline := pyStrip attrline0
  if attrline = [] then .ok (m, ds)
  else
    let eqSplit := eqSplitOf attrline
    let attrName := lowerL (pyStrip eqSplit.1)
    if attrName ∈ ATTRIBUTES_DROP then .ok (m, ds)
    else if attrName ∉ ATTRIBUTES then .ok (m, ds ++ [.dropUnknownAttr])
    else if ¬ attrOnlyInOK attrName category then .ok (m, ds)
    else
      match pyStrip eqSplit.2 with
      | [] => .error .indexError
      | c :: rest =>
        let value := collapseWS (unwrapValue (c :: rest))
        if value = [] then .ok (m, ds)
        else if pyIsUpper value ∧ (pyWords value).length > 2 then
          .ok (insertA attrName (capwords value) m, ds ++ [.allUpper])
        else .ok (insertA attrName value m, ds)

/-! ## Post-pass corrections (`process_entry` step 5) -/

/-- `re.compile("^\d+$")` applied with `.match` to a newline-free value. -/
def rePagesOne (p : List Char) : Bool := !p.isEmpty && p.all Char.isDigit

/-- `re.compile("^(\d+)\s*-+\s*(\d+)$")` applied with `.match` to a
newline-free value, returning the two groups.  The character classes are
disjoint, so greedy maximal munch is exact. -/
def rePagesTwo (p : List Char) : Option (List Char × List Char) :=
  let d1 := p.takeWhile Char.isDigit
  let r1 := p.dropWhile Char.isDigit
  let r2 := r1.dropWhile pyIsSpace
  let ds := r2.takeWhile (· = '-')
  let r3 := r2.dropWhile (· = '-')
  let r4 := r3.dropWhile pyIsSpace
  let d2 := r4.takeWhile Char.isDigit
  let r5 := r4.dropWhile Char.isDigit
  if d1 = [] ∨ ds = [] ∨ d2 = [] ∨ r5 ≠ [] then none else some (d1, d2)

/-- Title fallback: `misc` entries may promote `note` to `title`; otherwise a
missing title is only warned about here. -/
def titleStep (category : List Char) (st : AttrMap × List Diag) :
    AttrMap × List Diag :=
  if ¬ containsA "title".data st.1 then
    if category = "misc".data ∧ containsA "note".data st.1 then
      (insertA "title".data ((lookupA "note".data st.1).getD [])
        (eraseA "note".data st.1), st.2)
    else (st.1, st.2 ++ [.noTitle])
  else st

/-- `url`/`howpublished` are moved into a templated `note` carrying the
"accessed" wall-clock stamp (the stamp is a parameter of the model). -/
def urlStep (stamp : List Char) (st : AttrMap × List Diag) :
    AttrMap × List Diag :=
  if containsA "url".data st.1 ∨ containsA "howpublished".data st.1 then
    let ds := if containsA "note".data st.1 then st.2 ++ [.noteOverwrite]
              else st.2
    let moved := match lookupA "url".data st.1 with
      | some v => (v, eraseA "url".data st.1)
      | none => ((lookupA "howpublished".data st.1).getD [],
                 eraseA "howpublished".data st.1)
    (insertA "note".data
      ("\\url".data ++ '{' :: moved.1 ++ '}' :: ", accessed ".data ++ stamp)
      moved.2, ds)
  else st

/-- The `pages` correction. -/
def fixPages (st : AttrMap × List Diag) : AttrMap × List Diag :=
  match lookupA "pages".data st.1 with
  | none => st
  | some p =>
    if rePagesOne p then st
    else
      match rePagesTwo p with
      | some g => (insertA "pages".data (g.1 ++ "--".data ++ g.2) st.1, st.2)
      | none => (st.1, st.2 ++ [.pagesFormat])

/-- The `month` correction; `strptime` failure is a fatal error. -/
def monthStep (shorten : Bool) (st : AttrMap × List Diag) :
    Except PErr (AttrMap × List Diag) :=
  match lookupA "month".data st.1 with
  | none => .ok st
  | some v =>
    match parseMonthIdx (correctMonth3 (v.take 3)) with
    | none => .error .monthParse
    | some i =>
      .ok (insertA "month".data
        (if shorten then MONTHS_ABBREV.getD i [] else MONTHS_FULL.getD i [])
        st.1, st.2)

/-- `check_int_attr` for one attribute name: warning only, value untouched. -/
def checkIntAttr (name : List Char) (st : AttrMap × List Diag) :
    AttrMap × List Diag :=
  match lookupA name st.1 with
  | none => st
  | some v => if pyIntOK v then st else (st.1, st.2 ++ [.intFormat])

def intSteps (st : AttrMap × List Diag) : AttrMap × List Diag :=
  checkIntAttr "edition".data
    (checkIntAttr "volume".data (checkIntAttr "number".data st))

def correctAttrs (category : List Char) (shorten : Bool) (stamp : List Char)
    (st : AttrMap × List Diag) : Except PErr (AttrMap × List Diag) := do
  let st := titleStep category st
  let st := urlStep stamp st
  let st := fixPages st
  let st ← monthStep shorten st
  .ok (intSteps st)

/-! ## Serialization (`process_entry` step 6) and the full `process_entry` -/

/-- `"{0:10}".format(attribute)`: left-justified padding to width 10. -/
def pad10 (a : List Char) : List Char := a ++ List.replicate (10 - a.length) ' '

def attrLine (a v : List Char) : List Char :=
  "    ".data ++ pad10 a ++ " = ".data ++ '{' :: v ++ ['}', ',']

/-- The attributes that get emitted, in canonical order: the serialization
loop iterates `ATTRIBUTES` and keeps the present ones. -/
def emittedNames (m : AttrMap) : List (List Char) :=
  ATTRIBUTES.filter (fun a => containsA a m)

def serializeEntry (category anchor : List Char) (m : AttrMap) : List Char :=
  List.intercalate ['\n']
    (('@' :: category ++ '{' :: anchor ++ [','])
      :: (emittedNames m).map (fun a => attrLine a ((lookupA a m).getD []))
      ++ [['}']])

/-- Steps 0-5 of `process_entry`: checks, category, splitting, attribute
extraction, corrections.  Returns category, anchor, attribute map and
diagnostics. -/
def processEntryCore (raw : List Char) (shorten : Bool) (stamp : List Char) :
    Except PErr (List Char × List Char × AttrMap × List Diag) :=
  let s := pyStrip raw
  match s with
  | [] => .error .indexError
  | c0 :: _ =>
    if c0 ≠ '@' ∨ pyFind '{' s = none ∨ s.getLast? ≠ some '}' ∨
        s.count '{' ≠ s.count '}' then .error .parsedEntry
    else
      match pyFind '{' s with
      | none => .error .parsedEntry
      | some i =>
        let category := pyStrip (lowerL (slice s 1 i))
        if category ∉ CATEGORIES then .error .dropComment
        else do
          let content := slice s (i + 1) (s.length - 1)
          let sl ← mergeSegs (pySplit ',' content)
          let ds0 : List Diag :=
            if sl.2 ≠ [] then [.unmatchedBracket] else []
          match sl.1 with
          | [] => .error .indexError
          | a0 :: attrs =>
            let anchor := pyStrip a0
            let md ← attrs.foldlM (stepAttr category) ([], ds0)
            let md ← correctAttrs category shorten stamp md
            .ok (category, anchor, md.1, md.2)

/-- The whole `process_entry`: returns the serialized entry, the anchor and
the title.  `final_attrs["title"]` in the return statement raises `KeyError`
when no title attribute exists. -/
def process_entry (raw : List Char) (shorten : Bool) (stamp : List Char) :
    Except PErr (List Char × List Char × List Char × List Diag) := do
  let r ← processEntryCore raw shorten stamp
  match lookupA "title".data r.2.2.1 with
  | none => .error .keyError
  | some t => .ok (serializeEntry r.1 r.2.1 r.2.2.1, r.2.1, t, r.2.2.2)

/-! ## The full-text scanner and citation filter (`process_bib_files`) -/

/-- The character loop of `process_bib_files`: `full` is the whole input,
the explicit list argument is the not-yet-consumed suffix, `i` its starting
index, `depth` the `half_bracket` counter and `start` the index of the
pending `@`.  Returns the cited and not-cited serialized entries in source
order. -/
def scanAux (full : List Char) (shorten : Bool) (stamp : List Char)
    (cited : List (List Char)) :
    List Char → Nat → Int → Nat →
    Except PErr (List (List Char) × List (List Char))
  | [], _, _, _ => .ok ([], [])
  | c :: rest, i, depth, start =>
    if c = '@' then
      if depth ≠ 0 then .error .bracketNotMatch
      else scanAux full shorten stamp cited rest (i + 1) depth i
    else if c = '{' then scanAux full shorten stamp cited rest (i + 1) (depth + 1) start
    else if c = '}' then
      if depth - 1 = 0 then
        match process_entry (slice full start (i + 1)) shorten stamp with
        | .error .dropComment =>
          scanAux full shorten stamp cited rest (i + 1) (depth - 1) start
        | .error e => .error e
        | .ok r =>
          match scanAux full shorten stamp cited rest (i + 1) (depth - 1) start with
          | .error e => .error e
          | .ok fa =>
            if cited = [] ∨ r.2.1 ∈ cited then .ok (r.1 :: fa.1, fa.2)
            else .ok (fa.1, r.1 :: fa.2)
      else scanAux full shorten stamp cited rest (i + 1) (depth - 1) start
    else scanAux full shorten stamp cited rest (i + 1) depth start

/-- Entry collection without the citation partition: each successfully
processed entry paired with its anchor, in source order.  This is the
reference against which the partition of `scanAux` is stated. -/
def scanPairs (full : List Char) (shorten : Bool) (stamp : List Char) :
    List Char → Nat → Int → Nat →
    Except PErr (List (List Char × List Char))
  | [], _, _, _ => .ok []
  | c :: rest, i, depth, start =>
    if c = '@' then
      if depth ≠ 0 then .error .bracketNotMatch
      else scanPairs full shorten stamp rest (i + 1) depth i
    else if c = '{' then scanPairs full shorten stamp rest (i + 1) (depth + 1) start
    else if c = '}' then
      if depth - 1 = 0 then
        match process_entry (slice full start (i + 1)) shorten stamp with
        | .error .dropComment =>
          scanPairs full shorten stamp rest (i + 1) (depth - 1) start
        | .error e => .error e
        | .ok r =>
          match scanPairs full shorten stamp rest (i + 1) (depth - 1) start with
          | .error e => .error e
          | .ok l => .ok ((r.1, r.2.1) :: l)
      else scanPairs full shorten stamp rest (i + 1) (depth - 1) start
    else scanPairs full shorten stamp rest (i + 1) depth start

/-- `process_bib_files` on an in-memory input: primary output text, and the
not-cited file content when any entry is not cited. -/
def process_bib_files (content : List Char) (shorten : Bool)
    (stamp : List Char) (cited : List (List Char)) :
    Except PErr (List Char × Option (List Char)) := do
  let fa ← scanAux content shorten stamp cited content 0 0 0
  .ok (List.intercalate "\n\n".data fa.1,
       if fa.2 ≠ [] then some (List.intercalate "\n\n".data fa.2) else none)

/-- `analyze_aux`: collect `\bibcite{...}` anchors line by line; the final
`print(anchors[-1])` raises `IndexError` when no anchor was found. -/
def bibciteIn (line : List Char) : Option (List Char) :=
  let marker := "\\bibcite".data ++ ['{']
  match (List.range (line.length + 1)).findIdx?
      (fun i => (line.drop i).take marker.length == marker) with
  | none => none
  | some i =>
    let after := line.drop (i + marker.length)
    let grp := after.takeWhile (· ≠ '}')
    if grp ≠ [] ∧ after.drop grp.length ≠ [] then some grp else none

def analyze_aux (auxText : List Char) : Except PErr (List (List Char)) :=
  let anchors := (pySplit '\n' auxText).filterMap (fun l => bibciteIn (pyStrip l))
  if anchors = [] then .error .indexError else .ok anchors

/-! ## Decidability of run results -/

instance {ε α : Type} [DecidableEq ε] [DecidableEq α] : DecidableEq (Except ε α) :=
  fun x y =>
  match x, y with
  | .ok a, .ok b =>
    if h : a = b then .isTrue (by rw [h])
    else .isFalse (by intro hc; cases hc; exact h rfl)
  | .error a, .error b =>
    if h : a = b then .isTrue (by rw [h])
    else .isFalse (by intro hc; cases hc; exact h rfl)
  | .ok _, .error _ => .isFalse (by intro hc; cases hc)
  | .error _, .ok _ => .isFalse (by intro hc; cases hc)

/-! ## Theorems -/

/-- C1: a titleless entry outside the `misc` note-to-title fallback gets its
"no title" warning recorded and its normalized form built (steps 0-5 finish
with the `noTitle` diagnostic), but `process_entry` then raises `KeyError` at
`final_attrs["title"]` in the return statement instead of emitting it. -/
theorem no_title_warned_then_keyerror :
    processEntryCore "@article\x7ba, author = \x7bAlice\x7d\x7d".data false []
      = .ok ("article".data, "a".data, [("author".data, "Alice".data)],
             [.noTitle]) ∧
    process_entry "@article\x7ba, author = \x7bAlice\x7d\x7d".data false []
      = .error .keyError := ⟨rfl, rfl⟩

/-- C2 counterexample: an attribute assignment whose right-hand side is empty
already after trimming (here `year = `) is covered by the claim (trimming,
unwrapping and collapsing leave the empty string), yet `process_entry`
raises `IndexError` at `value[0]` instead of discarding the attribute. -/
theorem empty_rhs_value_raises :
    process_entry "@article\x7ba, title = \x7bT\x7d, year = \x7d".data false []
      = .error .indexError := rfl

/-- C2 amended: if the trimmed right-hand side of an attribute assignment is
nonempty but unwrapping and whitespace collapsing turn it into the empty
string, the attribute is discarded (the map is unchanged) and the step
succeeds, so the rest of the entry is normalized normally. -/
theorem empty_value_dropped (category : List Char) (m : AttrMap)
    (ds : List Diag) (line : List Char)
    (hne : pyStrip (eqSplitOf (pyStrip line)).2 ≠ [])
    (hempty : collapseWS (unwrapValue (pyStrip (eqSplitOf (pyStrip line)).2))
      = []) :
    ∃ ds', stepAttr category (m, ds) line = .ok (m, ds') := by
  unfold stepAttr
  by_cases h0 : pyStrip line = []
  · exact absurd (by rw [h0]; rfl) hne
  · simp only [h0, if_false]
    by_cases h1 : lowerL (pyStrip (eqSplitOf (pyStrip line)).1) ∈ ATTRIBUTES_DROP
    · exact ⟨ds, by simp [h1]⟩
    · by_cases h2 : lowerL (pyStrip (eqSplitOf (pyStrip line)).1) ∈ ATTRIBUTES
      · by_cases h3 :
          attrOnlyInOK (lowerL (pyStrip (eqSplitOf (pyStrip line)).1)) category
        · refine ⟨ds, ?_⟩
          simp only [h1, h2, h3, if_false, if_true, not_true, not_false_iff]
          obtain ⟨c, rest, hcr⟩ : ∃ c rest,
              pyStrip (eqSplitOf (pyStrip line)).2 = c :: rest := by
            cases hcc : pyStrip (eqSplitOf (pyStrip line)).2 with
            | nil => exact absurd hcc hne
            | cons c rest => exact ⟨c, rest, rfl⟩
          rw [hcr] at hempty ⊢
          simp [hempty]
        · exact ⟨ds, by simp [h1, h2, h3]⟩
      · exact ⟨ds ++ [.dropUnknownAttr], by simp [h1, h2]⟩

/-- C2 amended, witness: `year = \x7b \x7d` has a nonempty trimmed right-hand
side that collapses to nothing; the attribute is dropped without error. -/
theorem empty_value_dropped_witness :
    ∃ ds', stepAttr "article".data ([], []) " year = \x7b \x7d".data
      = .ok ([], ds') :=
  empty_value_dropped "article".data [] [] " year = \x7b \x7d".data
    (by decide) (by decide)

/-- C7: during the full-text scan, an `@` reached while the brace-depth
counter is nonzero immediately aborts with `ErrorBracketNotMatch`, and any
scan error makes `process_bib_files` fail without producing any output. -/
theorem at_sign_inside_entry_aborts :
    (∀ (full : List Char) (sh : Bool) (st : List Char)
        (cited : List (List Char)) (rest : List Char) (i : Nat) (depth : Int)
        (start : Nat), depth ≠ 0 →
      scanAux full sh st cited ('@' :: rest) i depth start
        = .error .bracketNotMatch) ∧
    (∀ (content : List Char) (sh : Bool) (st : List Char)
        (cited : List (List Char)) (e : PErr),
      scanAux content sh st cited content 0 0 0 = .error e →
      process_bib_files content sh st cited = .error e) := by
  constructor
  · intro full sh st cited rest i depth start h
    simp [scanAux, h]
  · intro content sh st cited e h
    unfold process_bib_files
    rw [h]
    rfl

/-- C7 witness: a concrete `@` at depth 1 kills the scan, and a concrete file
with an `@` inside braces produces no output at all. -/
theorem at_sign_inside_entry_aborts_witness :
    scanAux [] false [] [] ['@'] 0 1 0 = .error .bracketNotMatch ∧
    process_bib_files "@a\x7bx@y\x7d".data false [] []
      = .error .bracketNotMatch :=
  ⟨at_sign_inside_entry_aborts.1 [] false [] [] [] 0 1 0 (by decide),
   at_sign_inside_entry_aborts.2 "@a\x7bx@y\x7d".data false [] [] _ rfl⟩

/-- C8: value unwrapping inspects only the first character of the trimmed
value: when it is a double quote or an opening brace, exactly the first and
the last characters are removed (no condition on the last character);
otherwise the value is untouched. -/
theorem unwrap_inspects_first_char_only (c : Char) (rest : List Char) :
    ((c = '"' ∨ c = '{') → unwrapValue (c :: rest) = pyStrip rest.dropLast) ∧
    (c ≠ '"' → c ≠ '{' → unwrapValue (c :: rest) = c :: rest) := by
  constructor
  · intro h; simp [unwrapValue, h]
  · intro h1 h2; simp [unwrapValue, h1, h2]

/-- C8 witness: `{ab!` loses its first and last characters even though the
last one is no closing delimiter; `xyz` is untouched. -/
theorem unwrap_inspects_first_char_only_witness :
    unwrapValue ('{' :: "ab!".data) = "ab".data ∧
    unwrapValue ('x' :: "yz".data) = 'x' :: "yz".data :=
  ⟨((unwrap_inspects_first_char_only '{' "ab!".data).1 (Or.inr rfl)).trans
      (by decide),
   ((unwrap_inspects_first_char_only 'x' "yz".data).2 (by decide) (by decide))⟩

/-- C10: the quote-parity scan is not total: on `title = ""` the split on the
quote character produces an empty piece, `piece[-1]` raises `IndexError`,
and the whole run aborts instead of splitting the segment. -/
theorem adjacent_quotes_indexerror :
    sepOK " title = \"\"".data = none ∧
    process_bib_files "@article\x7ba, title = \"\"\x7d".data false [] []
      = .error .indexError := ⟨rfl, rfl⟩

/-- The canonical vocabulary and the drop-always list are disjoint. -/
theorem attributes_not_dropped : ∀ a ∈ ATTRIBUTES, a ∉ ATTRIBUTES_DROP := by
  decide

/-- C3: serialized attribute names are the canonical list filtered by
presence: always a sublist of `ATTRIBUTES` (hence in canonical order), never
containing a drop-list name or an out-of-vocabulary name, and depending only
on which names are present, not on their input order; and every emitted
entry's text is such a serialization. -/
theorem canonical_order_and_vocabulary :
    (∀ m : AttrMap, (emittedNames m).Sublist ATTRIBUTES ∧
      ∀ a ∈ emittedNames m, a ∈ ATTRIBUTES ∧ a ∉ ATTRIBUTES_DROP) ∧
    (∀ m₁ m₂ : AttrMap, (∀ a, containsA a m₁ = containsA a m₂) →
      emittedNames m₁ = emittedNames m₂) ∧
    (∀ (raw : List Char) (sh : Bool) (st : List Char) r,
      process_entry raw sh st = .ok r →
      ∃ cat m, r.1 = serializeEntry cat r.2.1 m) := by
  refine ⟨fun m => ⟨List.filter_sublist _, fun a ha => ?_⟩,
    fun m₁ m₂ h => List.filter_congr (fun a _ => by rw [h a]), ?_⟩
  · have h1 : a ∈ ATTRIBUTES := List.mem_of_mem_filter ha
    exact ⟨h1, attributes_not_dropped a h1⟩
  · intro raw sh st r h
    unfold process_entry at h
    cases hc : processEntryCore raw sh st with
    | error e => rw [hc] at h; cases h
    | ok q =>
      rw [hc] at h
      have h' : (match lookupA "title".data q.2.2.1 with
          | none => Except.error PErr.keyError
          | some t =>
            Except.ok (serializeEntry q.1 q.2.1 q.2.2.1, q.2.1, t, q.2.2.2))
          = Except.ok r := h
      cases hl : lookupA "title".data q.2.2.1 with
      | none => rw [hl] at h'; cases h'
      | some t =>
        rw [hl] at h'
        cases h'
        exact ⟨q.1, q.2.2.1, rfl⟩

/-- C3 witness: a concrete map, a concrete pair of permuted maps, and a
concrete emitted entry. -/
theorem canonical_order_and_vocabulary_witness :
    (emittedNames [("pages".data, "1".data)]).Sublist ATTRIBUTES ∧
    ("pages".data ∈ ATTRIBUTES ∧ "pages".data ∉ ATTRIBUTES_DROP) ∧
    emittedNames [("year".data, "2".data), ("author".data, "A".data)]
      = emittedNames [("author".data, "A".data), ("year".data, "2".data)] ∧
    ∃ cat m, (serializeEntry "misc".data "k".data
        [("title".data, "N".data)], "k".data, "N".data,
        ([] : List Diag)).1 = serializeEntry cat "k".data m :=
  ⟨(canonical_order_and_vocabulary.1 [("pages".data, "1".data)]).1,
   (canonical_order_and_vocabulary.1 [("pages".data, "1".data)]).2
     "pages".data (by decide),
   canonical_order_and_vocabulary.2.1 _ _ (by
     intro a
     simp only [containsA, lookupA]
     split_ifs <;> rfl),
   canonical_order_and_vocabulary.2.2 "@misc\x7bk, note=\x7bN\x7d\x7d".data
     false [] _ rfl⟩

/-! ### The pages regular expressions -/

theorem pyIsSpace_iff {c : Char} :
    pyIsSpace c = true ↔
      c = ' ' ∨ c = '\t' ∨ c = '\n' ∨ c = '\r' ∨ c = '\x0b' ∨ c = '\x0c' := by
  unfold pyIsSpace
  simp only [Bool.or_eq_true, decide_eq_true_iff]
  tauto

theorem not_space_of_digit {c : Char} (h : c.isDigit = true) :
    pyIsSpace c = false := by
  rw [Bool.eq_false_iff]
  intro hs
  rcases pyIsSpace_iff.mp hs with rfl | rfl | rfl | rfl | rfl | rfl <;>
    exact absurd h (by decide)

theorem not_dash_of_digit {c : Char} (h : c.isDigit = true) : (c = '-') = False := by
  simp only [eq_iff_iff, iff_false]
  rintro rfl
  exact absurd h (by decide)

/-- `takeWhile`/`dropWhile` on a decomposition whose head part satisfies the
predicate everywhere and whose remainder starts with a failing character. -/
theorem takeWhile_of_shape (p : Char → Bool) (a rest : List Char)
    (ha : ∀ c ∈ a, p c = true)
    (hrest : ∀ c, rest.head? = some c → p c = false) :
    (a ++ rest).takeWhile p = a ∧ (a ++ rest).dropWhile p = rest := by
  induction a with
  | nil =>
    cases rest with
    | nil => exact ⟨rfl, rfl⟩
    | cons c r =>
      have := hrest c rfl
      simp [List.takeWhile_cons, List.dropWhile_cons, this]
  | cons x xs ih =>
    have hx := ha x (by simp)
    have ih' := ih (fun c hc => ha c (by simp [hc]))
    simp [List.takeWhile_cons, List.dropWhile_cons, hx, ih'.1, ih'.2]

/-- Declarative reading of `^(\d+)\s*-+\s*(\d+)$`: two nonempty digit groups
around one or more dashes with optional surrounding whitespace. -/
def PagesTwoShape (p a b : List Char) : Prop :=
  a ≠ [] ∧ (∀ c ∈ a, c.isDigit = true) ∧ b ≠ [] ∧ (∀ c ∈ b, c.isDigit = true) ∧
  ∃ w1 dashes w2, (∀ c ∈ w1, pyIsSpace c = true) ∧ dashes ≠ [] ∧
    (∀ c ∈ dashes, c = '-') ∧ (∀ c ∈ w2, pyIsSpace c = true) ∧
    p = a ++ w1 ++ dashes ++ w2 ++ b

theorem rePagesTwo_iff (p a b : List Char) :
    rePagesTwo p = some (a, b) ↔ PagesTwoShape p a b := by
  constructor
  · intro h
    simp only [rePagesTwo] at h
    split at h
    · cases h
    · rename_i hcond
      injection h with h'
      obtain ⟨h1, h2⟩ := Prod.mk.injEq _ _ _ _ ▸ h'
      push_neg at hcond
      obtain ⟨hd1, hds, hd2, hr5⟩ := hcond
      have e1 := List.takeWhile_append_dropWhile (p := Char.isDigit) (l := p)
      have e2 := List.takeWhile_append_dropWhile (p := pyIsSpace)
        (l := p.dropWhile Char.isDigit)
      have e3 := List.takeWhile_append_dropWhile (p := fun c => decide (c = '-'))
        (l := (p.dropWhile Char.isDigit).dropWhile pyIsSpace)
      have e4 := List.takeWhile_append_dropWhile (p := pyIsSpace)
        (l := ((p.dropWhile Char.isDigit).dropWhile pyIsSpace).dropWhile
          (fun c => decide (c = '-')))
      have e5 := List.takeWhile_append_dropWhile (p := Char.isDigit)
        (l := (((p.dropWhile Char.isDigit).dropWhile pyIsSpace).dropWhile
          (fun c => decide (c = '-'))).dropWhile pyIsSpace)
      rw [hr5, List.append_nil] at e5
      refine ⟨h1 ▸ hd1, fun c hc => List.mem_takeWhile_imp (h1 ▸ hc),
        h2 ▸ hd2, fun c hc => List.mem_takeWhile_imp (h2 ▸ hc),
        (p.dropWhile Char.isDigit).takeWhile pyIsSpace,
        ((p.dropWhile Char.isDigit).dropWhile pyIsSpace).takeWhile
          (fun c => decide (c = '-')),
        (((p.dropWhile Char.isDigit).dropWhile pyIsSpace).dropWhile
          (fun c => decide (c = '-'))).takeWhile pyIsSpace,
        fun c hc => List.mem_takeWhile_imp hc, hds,
        fun c hc => by simpa using List.mem_takeWhile_imp hc,
        fun c hc => List.mem_takeWhile_imp hc, ?_⟩
      rw [← h1, ← h2]
      simp only [List.append_assoc]
      rw [e5, e4, e3, e2, e1]
  · rintro ⟨ha, hadig, hb, hbdig, w1, dashes, w2, hw1, hds, hdash, hw2, rfl⟩
    have hhead1 : ∀ c, (w1 ++ (dashes ++ (w2 ++ b))).head? = some c →
        Char.isDigit c = false := by
      intro c hc
      cases w1 with
      | cons x xs =>
        have hx := hw1 x (by simp)
        injection hc with hc'
        subst hc'
        rw [Bool.eq_false_iff]
        intro hd
        rw [not_space_of_digit hd] at hx
        cases hx
      | nil =>
        cases dashes with
        | nil => exact absurd rfl hds
        | cons y ys =>
          have hy := hdash y (by simp)
          simp only [List.nil_append, List.cons_append, List.head?] at hc
          injection hc with hc'
          subst hc'
          subst hy
          decide
    have step1 := takeWhile_of_shape Char.isDigit
      a (w1 ++ (dashes ++ (w2 ++ b))) hadig hhead1
    have hhead2 : ∀ c, (dashes ++ (w2 ++ b)).head? = some c →
        pyIsSpace c = false := by
      intro c hc
      cases dashes with
      | nil => exact absurd rfl hds
      | cons y ys =>
        have hy := hdash y (by simp)
        injection hc with hc'
        subst hc'
        subst hy
        decide
    have step2 := takeWhile_of_shape pyIsSpace
      w1 (dashes ++ (w2 ++ b)) hw1 hhead2
    have hhead3 : ∀ c, (w2 ++ b).head? = some c → decide (c = '-') = false := by
      intro c hc
      cases w2 with
      | cons x xs =>
        have hx := hw2 x (by simp)
        injection hc with hc'
        subst hc'
        simp only [decide_eq_false_iff_not]
        rintro rfl
        exact absurd hx (by decide)
      | nil =>
        cases b with
        | nil => exact absurd rfl hb
        | cons y ys =>
          have hy := hbdig y (by simp)
          simp only [List.nil_append, List.head?] at hc
          injection hc with hc'
          subst hc'
          simp only [decide_eq_false_iff_not]
          intro he
          rw [he] at hy
          exact absurd hy (by decide)
    have step3 := takeWhile_of_shape (fun c => decide (c = '-'))
      dashes (w2 ++ b)
      (fun c hc => by simp [hdash c hc]) hhead3
    have hhead4 : ∀ c, b.head? = some c → pyIsSpace c = false := by
      intro c hc
      cases b with
      | nil => cases hc
      | cons y ys =>
        injection hc with hc'
        subst hc'
        exact not_space_of_digit (hbdig y (by simp))
    have step4 := takeWhile_of_shape pyIsSpace
      w2 b hw2 hhead4
    have step5 := takeWhile_of_shape Char.isDigit
      b ([] : List Char) hbdig (fun c hc => by cases hc)
    rw [List.append_nil] at step5
    simp only [rePagesTwo, List.append_assoc]
    rw [step1.1, step1.2, step2.2, step3.1, step3.2, step4.2,
      step5.1, step5.2]
    rw [if_neg]
    push_neg
    exact ⟨ha, hds, hb, rfl⟩

/-- C6: the `pages` correction leaves a pure-integer value unchanged with no
warning; rewrites two integers separated by one or more dashes (optionally
with whitespace around the dashes) to the two integers joined by exactly two
dashes, with no warning; and leaves every other value unchanged while
recording a format warning. -/
theorem pages_rules (m : AttrMap) (ds : List Diag) (p : List Char)
    (hp : lookupA "pages".data m = some p) :
    (p ≠ [] → (∀ c ∈ p, c.isDigit = true) → fixPages (m, ds) = (m, ds)) ∧
    (∀ a b, PagesTwoShape p a b →
      fixPages (m, ds)
        = (insertA "pages".data (a ++ "--".data ++ b) m, ds)) ∧
    (¬(p ≠ [] ∧ ∀ c ∈ p, c.isDigit = true) →
      (∀ a b, ¬PagesTwoShape p a b) →
      fixPages (m, ds) = (m, ds ++ [.pagesFormat])) := by
  refine ⟨?_, ?_, ?_⟩
  · intro hne hall
    have hone : rePagesOne p = true := by
      unfold rePagesOne
      rw [Bool.and_eq_true]
      constructor
      · simpa [List.isEmpty_iff] using hne
      · exact List.all_eq_true.mpr hall
    unfold fixPages
    rw [hp]
    simp only [hone, if_true]
  · intro a b hshape
    have h2 := (rePagesTwo_iff p a b).mpr hshape
    have hone : rePagesOne p = false := by
      obtain ⟨_, _, _, _, w1, dashes, w2, _, hds, hdash, _, rfl⟩ := hshape
      cases dashes with
      | nil => exact absurd rfl hds
      | cons y ys =>
        have hy := hdash y (by simp)
        subst hy
        unfold rePagesOne
        rw [Bool.and_eq_false_iff]
        right
        rw [Bool.eq_false_iff]
        intro hall
        rw [List.all_eq_true] at hall
        exact absurd (hall '-' (by simp)) (by decide)
    unfold fixPages
    rw [hp]
    simp only [hone, Bool.false_eq_true, if_false, h2]
  · intro hone hnoshape
    have h1 : rePagesOne p = false := by
      rcases eq_or_ne p [] with rfl | hne
      · rfl
      · have hnall : ¬∀ c ∈ p, c.isDigit = true := fun hall => hone ⟨hne, hall⟩
        push_neg at hnall
        obtain ⟨c, hc, hcd⟩ := hnall
        unfold rePagesOne
        rw [Bool.and_eq_false_iff]
        right
        rw [Bool.eq_false_iff]
        intro hall
        rw [List.all_eq_true] at hall
        exact hcd (hall c hc)
    have h2 : rePagesTwo p = none := by
      cases h2 : rePagesTwo p with
      | none => rfl
      | some g =>
        exact absurd ((rePagesTwo_iff p g.1 g.2).mp (by rw [h2]))
          (hnoshape g.1 g.2)
    unfold fixPages
    rw [hp]
    simp only [h1, Bool.false_eq_true, if_false, h2]

/-- C6 witness: `12` is untouched, `12-34` and `12----34` become `12--34`
without a warning, `12,34` is untouched with the format warning. -/
theorem pages_rules_witness :
    fixPages ([("pages".data, "12".data)], []) = ([("pages".data, "12".data)], []) ∧
    fixPages ([("pages".data, "12-34".data)], [])
      = ([("pages".data, "12--34".data)], []) ∧
    fixPages ([("pages".data, "12----34".data)], [])
      = ([("pages".data, "12--34".data)], []) ∧
    fixPages ([("pages".data, "12,34".data)], [])
      = ([("pages".data, "12,34".data)], [.pagesFormat]) := by
  refine ⟨(pages_rules _ [] "12".data (by decide)).1 (by decide) (by decide),
    ((pages_rules _ [] "12-34".data (by decide)).2.1 "12".data "34".data
      ⟨by decide, by decide, by decide, by decide, [], ['-'], [],
        by decide, by decide, by decide, by decide, by decide⟩).trans
      (by decide),
    ((pages_rules _ [] "12----34".data (by decide)).2.1 "12".data "34".data
      ⟨by decide, by decide, by decide, by decide, [], ['-', '-', '-', '-'],
        [], by decide, by decide, by decide, by decide, by decide⟩).trans
      (by decide),
    (pages_rules _ [] "12,34".data (by decide)).2.2 (by decide)
      (fun a b hs => by
        have := (rePagesTwo_iff "12,34".data a b).mpr hs
        rw [show rePagesTwo "12,34".data = none from rfl] at this
        cases this)⟩

/-! ### The quote-parity scan, characterized -/

/-- The character preceding the continuation after scanning `p` (`prev` if
`p` is empty, else the last character of `p`). -/
def lastOr (prev : Option Char) (p : List Char) : Option Char :=
  p.foldl (fun _ c => some c) prev

/-- Direct single-pass reading of the quote scan: `none` when some quote has
no predecessor or follows another quote directly (the empty-piece
`IndexError`), else the number of quotes whose predecessor is not a
backslash. -/
def quoteScanDir (prev : Option Char) : List Char → Option Nat
  | [] => some 0
  | c :: rest =>
    if c = '"' then
      match prev with
      | none => none
      | some q =>
        if q = '"' then none
        else (quoteScanDir (some c) rest).map
          (fun n => if q = '\\' then n else n + 1)
    else quoteScanDir (some c) rest

/-- Declarative count of unescaped quotes: a quote immediately preceded by a
backslash does not count. -/
def unescQuotes (prev : Option Char) : List Char → Nat
  | [] => 0
  | c :: rest =>
    (if c = '"' ∧ prev ≠ some '\\' then 1 else 0) + unescQuotes (some c) rest

theorem lastOr_concat (prev : Option Char) (p : List Char) (c : Char) :
    lastOr prev (p ++ [c]) = some c := by
  simp [lastOr, List.foldl_append]

theorem quoteScanDir_append_quotefree (p : List Char) (hq : '"' ∉ p) :
    ∀ (t : List Char) (prev : Option Char),
      quoteScanDir prev (p ++ t) = quoteScanDir (lastOr prev p) t := by
  induction p with
  | nil => intro t prev; rfl
  | cons c rest ih =>
    intro t prev
    have hc : ¬(c = '"') := fun h => hq (h ▸ List.mem_cons_self c rest)
    have h1 : quoteScanDir prev ((c :: rest) ++ t)
        = quoteScanDir (some c) (rest ++ t) := by
      simp only [List.cons_append, quoteScanDir, hc, if_false]
      rfl
    rw [h1, ih (fun h => hq (List.mem_cons_of_mem c h)) t (some c)]
    rfl

theorem pySplit_ne_nil (sep : Char) (s : List Char) : pySplit sep s ≠ [] := by
  cases s with
  | nil => simp [pySplit]
  | cons c rest =>
    unfold pySplit
    by_cases h : c = sep
    · simp [h]
    · rw [if_neg h]
      cases pySplit sep rest <;> simp

theorem intercalate_pySplit (sep : Char) (s : List Char) :
    List.intercalate [sep] (pySplit sep s) = s := by
  induction s with
  | nil => simp [pySplit, List.intercalate]
  | cons c rest ih =>
    unfold pySplit
    by_cases h : c = sep
    · rw [if_pos h]
      cases hps : pySplit sep rest with
      | nil => exact absurd hps (pySplit_ne_nil sep rest)
      | cons p ps =>
        rw [show List.intercalate [sep] ([] :: p :: ps)
            = [] ++ sep :: List.intercalate [sep] (p :: ps) by
          simp [List.intercalate, List.intersperse]]
        rw [hps] at ih
        simp [ih, h]
    · rw [if_neg h]
      cases hps : pySplit sep rest with
      | nil => exact absurd hps (pySplit_ne_nil sep rest)
      | cons p ps =>
        rw [hps] at ih
        cases ps with
        | nil =>
          rw [show List.intercalate [sep] [c :: p] = c :: p by
            simp [List.intercalate, List.intersperse]]
          rw [show List.intercalate [sep] [p] = p from by
            simp [List.intercalate, List.intersperse]] at ih
          rw [ih]
        | cons q qs =>
          rw [show List.intercalate [sep] ((c :: p) :: q :: qs)
              = (c :: p) ++ sep :: List.intercalate [sep] (q :: qs) by
            simp [List.intercalate, List.intersperse]]
          rw [show List.intercalate [sep] (p :: q :: qs)
              = p ++ sep :: List.intercalate [sep] (q :: qs) by
            simp [List.intercalate, List.intersperse]] at ih
          simp [ih]

theorem pySplit_no_sep (sep : Char) (s : List Char) :
    ∀ piece ∈ pySplit sep s, sep ∉ piece := by
  induction s with
  | nil => intro piece hp; simp [pySplit] at hp; simp [hp]
  | cons c rest ih =>
    intro piece hp
    unfold pySplit at hp
    by_cases h : c = sep
    · rw [if_pos h] at hp
      rcases List.mem_cons.mp hp with rfl | hmem
      · simp
      · exact ih piece hmem
    · rw [if_neg h] at hp
      cases hps : pySplit sep rest with
      | nil => exact absurd hps (pySplit_ne_nil sep rest)
      | cons p ps =>
        rw [hps] at hp
        rcases List.mem_cons.mp hp with rfl | hmem
        · intro hmem2
          rcases List.mem_cons.mp hmem2 with h' | h'
          · exact h h'.symm
          · exact ih p (hps ▸ List.mem_cons_self p ps) h'
        · exact ih piece (hps ▸ List.mem_cons_of_mem p hmem)

/-- The piece-based quote scan of the source equals the direct scan. -/
theorem scanPieces_intercalate (P : List (List Char)) :
    ∀ (prev : Option Char), (∀ p ∈ P, '"' ∉ p) →
      (prev = none ∨ prev = some '"') →
      quoteScanDir prev (List.intercalate ['"'] P) = scanPieces P.dropLast := by
  induction P with
  | nil => intro prev _ _; rfl
  | cons p P' ih =>
    intro prev hq hprev
    cases P' with
    | nil =>
      rw [show List.intercalate ['"'] [p] = p by
        simp [List.intercalate, List.intersperse]]
      rw [show ([p] : List (List Char)).dropLast = [] from rfl]
      have := quoteScanDir_append_quotefree p (hq p (by simp)) [] prev
      rw [List.append_nil] at this
      rw [this]
      rfl
    | cons p' P'' =>
      rw [show List.intercalate ['"'] (p :: p' :: P'')
          = p ++ '"' :: List.intercalate ['"'] (p' :: P'') by
        simp [List.intercalate, List.intersperse]]
      rw [quoteScanDir_append_quotefree p (hq p (by simp))]
      rw [show (p :: p' :: P'').dropLast = p :: (p' :: P'').dropLast from rfl]
      rcases List.eq_nil_or_concat p with rfl | ⟨ps, c0, rfl⟩
      · have hl : lastOr prev [] = prev := rfl
        rw [hl]
        rcases hprev with rfl | rfl
        · rfl
        · rfl
      · simp only [List.concat_eq_append] at hq ⊢
        rw [lastOr_concat]
        have hc0 : ¬(c0 = '"') := fun h =>
          hq (ps ++ [c0]) (by simp) (by simp [h])
        have hstep : quoteScanDir (some c0)
            ('"' :: List.intercalate ['"'] (p' :: P''))
            = (quoteScanDir (some '"') (List.intercalate ['"'] (p' :: P''))).map
              (fun n => if c0 = '\\' then n else n + 1) := by
          have hrfl : quoteScanDir (some c0)
              ('"' :: List.intercalate ['"'] (p' :: P''))
              = if c0 = '"' then none
                else (quoteScanDir (some '"')
                  (List.intercalate ['"'] (p' :: P''))).map
                  (fun n => if c0 = '\\' then n else n + 1) := rfl
          rw [hrfl, if_neg hc0]
        rw [hstep]
        rw [ih (some '"') (fun q hq' => hq q (List.mem_cons_of_mem _ hq'))
          (Or.inr rfl)]
        have hlast : scanPieces ((ps ++ [c0]) :: (p' :: P'').dropLast)
            = (scanPieces (p' :: P'').dropLast).map
              (fun n => if c0 = '\\' then n else n + 1) := by
          show (match (ps ++ [c0]).getLast? with
              | none => none
              | some c => (scanPieces ((p' :: P'').dropLast)).map
                  (fun n => if c = '\\' then n else n + 1)) = _
          rw [List.getLast?_concat]
        rw [hlast]

/-- On crash-free segments the code's count is the declarative count. -/
theorem quoteScanDir_eq_unescQuotes :
    ∀ (s : List Char) (prev : Option Char) (n : Nat),
      quoteScanDir prev s = some n → n = unescQuotes prev s := by
  intro s
  induction s with
  | nil => intro prev n h; injection h with h'; simp [unescQuotes, h'.symm]
  | cons c rest ih =>
    intro prev n h
    unfold quoteScanDir at h
    unfold unescQuotes
    by_cases hc : c = '"'
    · rw [if_pos hc] at h
      cases prev with
      | none => cases h
      | some q =>
        have h2 : (if q = '"' then none
            else (quoteScanDir (some c) rest).map
              (fun n => if q = '\\' then n else n + 1)) = some n := h
        by_cases hq : q = '"'
        · rw [if_pos hq] at h2; cases h2
        · rw [if_neg hq] at h2
          cases hrec : quoteScanDir (some c) rest with
          | none => rw [hrec] at h2; cases h2
          | some n' =>
            rw [hrec, Option.map_some'] at h2
            injection h2 with h'
            have hih := ih (some c) n' hrec
            by_cases hbs : q = '\\'
            · rw [if_pos hbs] at h'
              rw [show (if c = '"' ∧ some q ≠ some '\\' then 1 else 0) = 0 by
                simp [hbs]]
              omega
            · rw [if_neg hbs] at h'
              rw [show (if c = '"' ∧ some q ≠ some '\\' then 1 else 0) = 1 by
                simp [hc, hbs]]
              omega
    · rw [if_neg hc] at h
      rw [show (if c = '"' ∧ prev ≠ some '\\' then 1 else 0) = 0 by
        simp [hc]]
      rw [Nat.zero_add]
      exact ih (some c) n h

/-- The scan inside `sepOK` is the direct scan. -/
theorem scanPieces_eq_dir (s : List Char) :
    scanPieces ((pySplit '"' s).dropLast) = quoteScanDir none s := by
  rw [← scanPieces_intercalate (pySplit '"' s) none
    (pySplit_no_sep '"' s) (Or.inl rfl)]
  rw [intercalate_pySplit]

/-- C5: whenever the quote scan completes (no `IndexError`), a comma is a
real separator if and only if the accumulated segment has equal numbers of
opening and closing braces and an even number of unescaped quote characters
(a quote immediately preceded by a backslash does not count). -/
theorem comma_separator_iff (seg : List Char)
    (hdef : quoteScanDir none seg ≠ none) :
    sepOK seg = some true ↔
      (seg.count '{' = seg.count '}') ∧ unescQuotes none seg % 2 = 0 := by
  obtain ⟨n, hn⟩ := Option.ne_none_iff_exists'.mp hdef
  have hcount := quoteScanDir_eq_unescQuotes seg none n hn
  have hb : scanPieces ((pySplit '"' seg).dropLast) = some n := by
    rw [scanPieces_eq_dir]; exact hn
  unfold sepOK
  rw [hb]
  by_cases hbr : seg.count '{' = seg.count '}'
  · rw [if_pos hbr]
    constructor
    · intro h
      have h'' : some (decide (n % 2 = 0)) = some true := h
      injection h'' with h'
      exact ⟨hbr, hcount ▸ of_decide_eq_true h'⟩
    · rintro ⟨-, h2⟩
      show some (decide (n % 2 = 0)) = some true
      rw [show (decide (n % 2 = 0)) = true from decide_eq_true (hcount ▸ h2)]
  · rw [if_neg hbr]
    constructor
    · intro h
      have h'' : (some false : Option Bool) = some true := h
      injection h'' with h'
      cases h'
    · rintro ⟨h1, -⟩; exact absurd h1 hbr

/-- C5 witness: in `x = "a\"b"` the escaped quote does not count, the two
unescaped quotes make the parity even, braces balance, and the segment is
flushed. -/
theorem comma_separator_iff_witness :
    sepOK ['x', ' ', '=', ' ', '"', 'a', '\\', '"', 'b', '"'] = some true :=
  (comma_separator_iff ['x', ' ', '=', ' ', '"', 'a', '\\', '"', 'b', '"']
    (by decide)).mpr ⟨by decide, by decide⟩

/-! ### The citation partition -/

theorem scanAux_cons (full : List Char) (sh : Bool) (st : List Char)
    (cited : List (List Char)) (c : Char) (rest : List Char) (i : Nat)
    (depth : Int) (start : Nat) :
    scanAux full sh st cited (c :: rest) i depth start =
      if c = '@' then
        if depth ≠ 0 then .error .bracketNotMatch
        else scanAux full sh st cited rest (i + 1) depth i
      else if c = '{' then
        scanAux full sh st cited rest (i + 1) (depth + 1) start
      else if c = '}' then
        if depth - 1 = 0 then
          match process_entry (slice full start (i + 1)) sh st with
          | .error .dropComment =>
            scanAux full sh st cited rest (i + 1) (depth - 1) start
          | .error e => .error e
          | .ok r =>
            match scanAux full sh st cited rest (i + 1) (depth - 1) start with
            | .error e => .error e
            | .ok fa =>
              if cited = [] ∨ r.2.1 ∈ cited then .ok (r.1 :: fa.1, fa.2)
              else .ok (fa.1, r.1 :: fa.2)
        else scanAux full sh st cited rest (i + 1) (depth - 1) start
      else scanAux full sh st cited rest (i + 1) depth start := rfl

theorem scanPairs_cons (full : List Char) (sh : Bool) (st : List Char)
    (c : Char) (rest : List Char) (i : Nat) (depth : Int) (start : Nat) :
    scanPairs full sh st (c :: rest) i depth start =
      if c = '@' then
        if depth ≠ 0 then .error .bracketNotMatch
        else scanPairs full sh st rest (i + 1) depth i
      else if c = '{' then
        scanPairs full sh st rest (i + 1) (depth + 1) start
      else if c = '}' then
        if depth - 1 = 0 then
          match process_entry (slice full start (i + 1)) sh st with
          | .error .dropComment =>
            scanPairs full sh st rest (i + 1) (depth - 1) start
          | .error e => .error e
          | .ok r =>
            match scanPairs full sh st rest (i + 1) (depth - 1) start with
            | .error e => .error e
            | .ok l => .ok ((r.1, r.2.1) :: l)
        else scanPairs full sh st rest (i + 1) (depth - 1) start
      else scanPairs full sh st rest (i + 1) depth start := rfl

/-- The cited/not-cited partition of the scan, relative to the plain entry
collection: the two outputs are the filter of the collected entries by
anchor membership in `cited` (everything is "cited" when `cited` is empty),
both in source order. -/
theorem scanAux_partition (full : List Char) (sh : Bool) (st : List Char)
    (cited : List (List Char)) :
    ∀ (rem : List Char) (i : Nat) (depth : Int) (start : Nat)
      (l : List (List Char × List Char)),
      scanPairs full sh st rem i depth start = .ok l →
      scanAux full sh st cited rem i depth start
        = .ok ((l.filter (fun pr => decide (cited = [] ∨ pr.2 ∈ cited))).map
            Prod.fst,
          (l.filter (fun pr => !decide (cited = [] ∨ pr.2 ∈ cited))).map
            Prod.fst) := by
  intro rem
  induction rem with
  | nil =>
    intro i depth start l h
    have h' : (Except.ok [] : Except PErr (List (List Char × List Char)))
        = .ok l := h
    injection h' with h''
    subst h''
    rfl
  | cons c rest ih =>
    intro i depth start l h
    rw [scanPairs_cons] at h
    rw [scanAux_cons]
    by_cases hc : c = '@'
    · rw [if_pos hc] at h ⊢
      by_cases hd : depth ≠ 0
      · rw [if_pos hd] at h; cases h
      · rw [if_neg hd] at h ⊢
        exact ih _ _ _ _ h
    · rw [if_neg hc] at h ⊢
      by_cases hb : c = '{'
      · rw [if_pos hb] at h ⊢
        exact ih _ _ _ _ h
      · rw [if_neg hb] at h ⊢
        by_cases hcl : c = '}'
        · rw [if_pos hcl] at h ⊢
          by_cases hd0 : depth - 1 = 0
          · rw [if_pos hd0] at h ⊢
            cases hpe : process_entry (slice full start (i + 1)) sh st with
            | error e =>
              rw [hpe] at h
              cases e with
              | dropComment => exact ih _ _ _ _ h
              | parsedEntry =>
                have h' : (Except.error PErr.parsedEntry :
                    Except PErr (List (List Char × List Char)))
                    = .ok l := h
                cases h'
              | bracketNotMatch =>
                have h' : (Except.error PErr.bracketNotMatch :
                    Except PErr (List (List Char × List Char)))
                    = .ok l := h
                cases h'
              | indexError =>
                have h' : (Except.error PErr.indexError :
                    Except PErr (List (List Char × List Char)))
                    = .ok l := h
                cases h'
              | keyError =>
                have h' : (Except.error PErr.keyError :
                    Except PErr (List (List Char × List Char)))
                    = .ok l := h
                cases h'
              | monthParse =>
                have h' : (Except.error PErr.monthParse :
                    Except PErr (List (List Char × List Char)))
                    = .ok l := h
                cases h'
            | ok r =>
              rw [hpe] at h
              have h2 : (match scanPairs full sh st rest (i + 1) (depth - 1)
                    start with
                  | Except.error e =>
                    (Except.error e :
                      Except PErr (List (List Char × List Char)))
                  | Except.ok l' => Except.ok ((r.1, r.2.1) :: l'))
                  = Except.ok l := h
              cases hrec : scanPairs full sh st rest (i + 1) (depth - 1)
                  start with
              | error e => rw [hrec] at h2; cases h2
              | ok l' =>
                rw [hrec] at h2
                have h3 : (Except.ok ((r.1, r.2.1) :: l') :
                    Except PErr (List (List Char × List Char)))
                    = Except.ok l := h2
                injection h3 with h4
                subst h4
                show (match scanAux full sh st cited rest (i + 1) (depth - 1)
                      start with
                    | Except.error e =>
                      (Except.error e :
                        Except PErr (List (List Char) × List (List Char)))
                    | Except.ok fa =>
                      if cited = [] ∨ r.2.1 ∈ cited then
                        Except.ok (r.1 :: fa.1, fa.2)
                      else Except.ok (fa.1, r.1 :: fa.2)) = _
                rw [ih _ _ _ _ hrec]
                by_cases hcit : cited = [] ∨ r.2.1 ∈ cited
                · show (if cited = [] ∨ r.2.1 ∈ cited then _ else _) = _
                  rw [if_pos hcit]
                  simp only [List.filter_cons, decide_eq_true hcit,
                    Bool.not_true, Bool.false_eq_true, if_true, if_false,
                    List.map_cons]
                · show (if cited = [] ∨ r.2.1 ∈ cited then _ else _) = _
                  rw [if_neg hcit]
                  simp only [List.filter_cons, decide_eq_false hcit,
                    Bool.not_false, Bool.false_eq_true, if_true, if_false,
                    List.map_cons]
          · rw [if_neg hd0] at h ⊢
            exact ih _ _ _ _ h
        · rw [if_neg hcl] at h ⊢
          exact ih _ _ _ _ h

/-- C9: citation filtering partitions the collected entries by anchor
membership: with a nonempty citation set, entries with anchors outside the
set go only to the secondary (not-cited) output and the others only to the
primary output, both in original relative order; with no citation list
(empty `cited`), every entry goes to the primary output and no secondary
output is produced. -/
theorem citation_partition (content : List Char) (sh : Bool) (st : List Char)
    (cited : List (List Char)) (l : List (List Char × List Char))
    (h : scanPairs content sh st content 0 0 0 = .ok l) :
    process_bib_files content sh st cited
      = .ok (List.intercalate "\n\n".data
          ((l.filter (fun pr => decide (cited = [] ∨ pr.2 ∈ cited))).map
            Prod.fst),
        if (l.filter (fun pr => !decide (cited = [] ∨ pr.2 ∈ cited))).map
            Prod.fst ≠ [] then
          some (List.intercalate "\n\n".data
            ((l.filter (fun pr => !decide (cited = [] ∨ pr.2 ∈ cited))).map
              Prod.fst))
        else none) ∧
    (cited = [] →
      process_bib_files content sh st cited
        = .ok (List.intercalate "\n\n".data (l.map Prod.fst), none)) := by
  have hs := scanAux_partition content sh st cited content 0 0 0 l h
  constructor
  · unfold process_bib_files
    rw [hs]
    rfl
  · intro hcit
    subst hcit
    have e1 : l.filter (fun pr =>
        decide (([] : List (List Char)) = [] ∨ pr.2 ∈ ([] : List (List Char))))
        = l := by simp
    have e2 : l.filter (fun pr =>
        !decide (([] : List (List Char)) = [] ∨ pr.2 ∈ ([] : List (List Char))))
        = [] := by simp
    unfold process_bib_files
    rw [hs, e1, e2]
    rfl

/-- C9 witness: two entries with anchors `x` and `y`; citing only `x` sends
`y`'s entry to the secondary output alone, and citing nothing keeps both in
the primary output with no secondary output. -/
theorem citation_partition_witness :
    process_bib_files "@misc\x7bx,note=\x7bN\x7d\x7d@misc\x7by,note=\x7bM\x7d\x7d".data
        false [] ["x".data]
      = .ok ("@misc\x7bx,\n    title      = \x7bN\x7d,\n\x7d".data,
          some "@misc\x7by,\n    title      = \x7bM\x7d,\n\x7d".data) ∧
    process_bib_files "@misc\x7bx,note=\x7bN\x7d\x7d@misc\x7by,note=\x7bM\x7d\x7d".data
        false [] []
      = .ok (("@misc\x7bx,\n    title      = \x7bN\x7d,\n\x7d\n\n"
          ++ "@misc\x7by,\n    title      = \x7bM\x7d,\n\x7d").data, none) :=
  ⟨Eq.trans
    ((citation_partition
      "@misc\x7bx,note=\x7bN\x7d\x7d@misc\x7by,note=\x7bM\x7d\x7d".data
      false [] ["x".data]
      [("@misc\x7bx,\n    title      = \x7bN\x7d,\n\x7d".data, "x".data),
       ("@misc\x7by,\n    title      = \x7bM\x7d,\n\x7d".data, "y".data)]
      rfl).1)
    (by rfl),
   Eq.trans
    (((citation_partition
      "@misc\x7bx,note=\x7bN\x7d\x7d@misc\x7by,note=\x7bM\x7d\x7d".data
      false [] []
      [("@misc\x7bx,\n    title      = \x7bN\x7d,\n\x7d".data, "x".data),
       ("@misc\x7by,\n    title      = \x7bM\x7d,\n\x7d".data, "y".data)]
      rfl).2) rfl)
    (by rfl)⟩

/-! ### Idempotence: counterexample and supporting machinery -/

/-- C4 counterexample: `title = \x7babc\x7d d` is accepted and the asymmetric
unwrap stores the brace-unbalanced value `abc\x7d`, so the emitted entry fails
the brace-count check when normalized again: re-normalization raises
`ErrorParsedEntry` instead of reproducing the output. -/
theorem idempotence_fails :
    process_entry "@article\x7ba, title = \x7babc\x7d d\x7d".data false []
      = .ok ("@article\x7ba,\n    title      = \x7babc\x7d\x7d,\n\x7d".data,
          "a".data, "abc\x7d".data, []) ∧
    process_entry "@article\x7ba,\n    title      = \x7babc\x7d\x7d,\n\x7d".data
        false []
      = .error .parsedEntry := ⟨rfl, rfl⟩

/-- `","` → `", "`: the separator rewriting the accumulation loop applies
when it rejoins comma-split pieces. -/
def rwChar (c : Char) : List Char := if c = ',' then [',', ' '] else [c]

def rw (s : List Char) : List Char := s.flatMap rwChar

/-- Prefix-nonnegativity of the brace depth (`d` is the running depth). -/
def braceNonneg : Nat → List Char → Bool
  | _, [] => true
  | d, c :: rest =>
    if c = '{' then braceNonneg (d + 1) rest
    else if c = '}' then
      match d with
      | 0 => false
      | d' + 1 => braceNonneg d' rest
    else braceNonneg d rest

/-- Quote admissibility of a value in its serialized context: scanning
`rw v ++ "\x7d"` with `\x7b` as the previous character completes with an even
count. -/
def quoteValueOK (v : List Char) : Bool :=
  match quoteScanDir (some '{') (rw v ++ ['}']) with
  | none => false
  | some n => n % 2 == 0

/-- Stability of the per-value cleaning under re-parsing: collapsing the
stripped, separator-rewritten value gives the value back. -/
def rwStable (v : List Char) : Bool := collapseWS (pyStrip (rw v)) == v

/-- The all-caps correction does not change the value again. -/
def capStableB (v : List Char) : Bool :=
  !(pyIsUpper v && decide ((pyWords v).length > 2)) || (capwords v == v)

/-- All conditions on one emitted attribute pair needed for the round trip. -/
def valueClean (category a v : List Char) : Bool :=
  !(v == []) && braceNonneg 0 v && (v.count '{' == v.count '}') &&
    quoteValueOK v && rwStable v && capStableB v && attrOnlyInOK a category

/-- Conditions on the emitted anchor. -/
def anchorClean (anc : List Char) : Bool :=
  !(anc.contains ',') && (sepOK anc == some true) && (pyStrip anc == anc)

/-- The `pages` correction maps the stored value to itself. -/
def pagesStable (m : AttrMap) : Bool :=
  match lookupA "pages".data m with
  | none => true
  | some p =>
    rePagesOne p ||
      match rePagesTwo p with
      | some g => (g.1 ++ "--".data ++ g.2) == p
      | none => true

/-- The `month` correction maps the stored value to itself. -/
def monthStable (shorten : Bool) (m : AttrMap) : Bool :=
  match lookupA "month".data m with
  | none => true
  | some v =>
    match parseMonthIdx (correctMonth3 (v.take 3)) with
    | none => false
    | some i =>
      ((if shorten then MONTHS_ABBREV else MONTHS_FULL).getD i []) == v

/-- The emitted attribute pairs, in serialization order. -/
def entryPairs (m : AttrMap) : List (List Char × List Char) :=
  (emittedNames m).map (fun a => (a, (lookupA a m).getD []))

/-! ### Basic lemmas for the round trip -/

theorem rw_append (x y : List Char) : rw (x ++ y) = rw x ++ rw y := by
  simp [rw]

theorem rw_cons (c : Char) (rest : List Char) :
    rw (c :: rest) = rwChar c ++ rw rest := by
  simp [rw]

theorem rw_no_comma {s : List Char} (h : ',' ∉ s) : rw s = s := by
  induction s with
  | nil => rfl
  | cons c rest ih =>
    rw [rw_cons]
    have hc : ¬(c = ',') := fun hcc => h (hcc ▸ List.mem_cons_self c rest)
    rw [show rwChar c = [c] by simp [rwChar, hc]]
    rw [ih (fun hm => h (List.mem_cons_of_mem c hm))]
    rfl

theorem count_rw (c : Char) (hc : c ≠ ' ') (s : List Char) :
    (rw s).count c = s.count c := by
  induction s with
  | nil => rfl
  | cons d rest ih =>
    have hrc : (rwChar d).count c = [d].count c := by
      unfold rwChar
      by_cases hd : d = ','
      · rw [if_pos hd, hd]
        rw [List.count_cons, List.count_cons, List.count_nil,
          List.count_cons, List.count_nil]
        rw [show ((' ' : Char) == c) = false from
          beq_eq_false_iff_ne.mpr (fun he => hc he.symm)]
        simp
      · rw [if_neg hd]
    rw [rw_cons, List.count_append, hrc, ih, List.count_cons,
      List.count_cons, List.count_nil]
    omega

theorem dropWhile_append_all {p : Char → Bool} {sp rest : List Char}
    (h : ∀ c ∈ sp, p c = true) :
    List.dropWhile p (sp ++ rest) = List.dropWhile p rest := by
  induction sp with
  | nil => rfl
  | cons c sp' ih =>
    rw [List.cons_append, List.dropWhile_cons, h c (by simp), if_pos rfl]
    exact ih (fun c hc => h c (by simp [hc]))

theorem dropWhile_eq_self {p : Char → Bool} {s : List Char}
    (h : ∀ hd, s.head? = some hd → p hd = false) :
    List.dropWhile p s = s := by
  cases s with
  | nil => rfl
  | cons c rest =>
    rw [List.dropWhile_cons, h c rfl]
    simp

theorem mem_of_getLast?_eq {l : List Char} {x : Char}
    (h : l.getLast? = some x) : x ∈ l := by
  rcases List.mem_getLast?_eq_getLast (Option.mem_def.mpr h) with ⟨hne, hx⟩
  rw [hx]
  exact List.getLast_mem hne

theorem pyStrip_prepend_spaces {sp rest : List Char}
    (h : ∀ c ∈ sp, pyIsSpace c = true) :
    pyStrip (sp ++ rest) = pyStrip rest := by
  unfold pyStrip
  rw [dropWhile_append_all h]

theorem pyStrip_eq_self {s : List Char}
    (h1 : ∀ hd, s.head? = some hd → pyIsSpace hd = false)
    (h2 : ∀ lt, s.getLast? = some lt → pyIsSpace lt = false) :
    pyStrip s = s := by
  unfold pyStrip
  rw [dropWhile_eq_self h1]
  rw [dropWhile_eq_self (fun hd hh => h2 hd (by rwa [← List.head?_reverse]))]
  exact List.reverse_reverse s

theorem pyStrip_append_spaces {a sp : List Char} (ha : a ≠ [])
    (h1 : ∀ c ∈ a, pyIsSpace c = false) (h2 : ∀ c ∈ sp, pyIsSpace c = true) :
    pyStrip (a ++ sp) = a := by
  have e1 : List.dropWhile pyIsSpace (a ++ sp) = a ++ sp := by
    apply dropWhile_eq_self
    intro hd hh
    cases a with
    | nil => exact absurd rfl ha
    | cons c r =>
      rw [List.cons_append] at hh
      simp only [List.head?_cons, Option.some.injEq] at hh
      exact hh ▸ h1 c (by simp)
  have e2 : List.dropWhile pyIsSpace (a ++ sp).reverse = a.reverse := by
    rw [List.reverse_append]
    rw [dropWhile_append_all (fun c hc => h2 c (List.mem_reverse.mp hc))]
    apply dropWhile_eq_self
    intro hd hh
    rw [List.head?_reverse] at hh
    exact h1 hd (mem_of_getLast?_eq hh)
  unfold pyStrip
  rw [e1, e2, List.reverse_reverse]

theorem pyFind_append {xs ys : List Char} {c : Char}
    (h : ∀ x ∈ xs, ¬(x = c)) :
    pyFind c (xs ++ c :: ys) = some xs.length := by
  induction xs with
  | nil => simp [pyFind, List.findIdx?_cons]
  | cons x xs' ih =>
    unfold pyFind at ih ⊢
    rw [List.cons_append, List.findIdx?_cons]
    rw [show (decide (x = c)) = false from decide_eq_false (h x (by simp))]
    rw [if_neg (by simp), List.findIdx?_succ,
      ih (fun y hy => h y (by simp [hy]))]
    rfl

theorem pySplit_cons_sep (sep : Char) (rest : List Char) :
    pySplit sep (sep :: rest) = [] :: pySplit sep rest := by
  unfold pySplit
  rw [if_pos rfl]
  cases rest with
  | nil => rfl
  | cons c r => rfl

theorem pySplit_cons_ne (sep c : Char) (rest : List Char) (h : ¬c = sep)
    (p : List Char) (ps : List (List Char)) (hps : pySplit sep rest = p :: ps) :
    pySplit sep (c :: rest) = (c :: p) :: ps := by
  unfold pySplit
  rw [if_neg h, hps]

theorem pySplit_append_sep (sep : Char) (xs ys : List Char) :
    pySplit sep (xs ++ sep :: ys) = pySplit sep xs ++ pySplit sep ys := by
  induction xs with
  | nil => simp [pySplit]
  | cons x xs' ih =>
    rw [List.cons_append]
    by_cases hx : x = sep
    · subst hx
      rw [pySplit_cons_sep, pySplit_cons_sep, ih]
      rfl
    · cases hps : pySplit sep xs' with
      | nil => exact absurd hps (pySplit_ne_nil sep xs')
      | cons p ps =>
        rw [pySplit_cons_ne sep x (xs' ++ sep :: ys) hx p
          (ps ++ pySplit sep ys) (by rw [ih, hps]; rfl)]
        rw [pySplit_cons_ne sep x xs' hx p ps hps]
        rfl

theorem pySplit_no_sep_single {sep : Char} {s : List Char} (h : sep ∉ s) :
    pySplit sep s = [s] := by
  induction s with
  | nil => rfl
  | cons c rest ih =>
    by_cases hcs : c = sep
    · subst hcs
      exact absurd (List.mem_cons_self c rest) h
    · rw [pySplit_cons_ne sep c rest hcs rest []
        (ih (fun hm => h (List.mem_cons_of_mem c hm)))]

/-- Prefix counts under `braceNonneg`. -/
theorem braceNonneg_prefix {v : List Char} :
    ∀ (d : Nat), braceNonneg d v = true →
      ∀ pre suf, v = pre ++ suf → pre.count '}' ≤ d + pre.count '{' := by
  induction v with
  | nil =>
    intro d _ pre suf hps
    have : pre = [] := by
      cases pre with
      | nil => rfl
      | cons c r => cases hps
    subst this
    simp
  | cons c rest ih =>
    intro d hb pre suf hps
    cases pre with
    | nil => simp
    | cons c' pre' =>
      injection hps with h1 h2
      subst h1
      unfold braceNonneg at hb
      by_cases hc1 : c = '{'
      · rw [if_pos hc1] at hb
        subst hc1
        have := ih (d + 1) hb pre' suf h2
        simp only [List.count_cons]
        simp only [show (('{' : Char) == '}') = false by decide,
          show (('{' : Char) == '{') = true by decide, Bool.false_eq_true,
          if_false, if_true]
        omega
      · rw [if_neg hc1] at hb
        by_cases hc2 : c = '}'
        · rw [if_pos hc2] at hb
          subst hc2
          cases d with
          | zero => cases hb
          | succ d' =>
            have := ih d' hb pre' suf h2
            simp only [List.count_cons]
            simp only [show (('}' : Char) == '}') = true by decide,
              show (('}' : Char) == '{') = false by decide, Bool.false_eq_true,
              if_false, if_true]
            omega
        · rw [if_neg hc2] at hb
          have := ih d hb pre' suf h2
          simp only [List.count_cons]
          rw [show ((c == '}') = false) from beq_eq_false_iff_ne.mpr hc2,
            show ((c == '{') = false) from beq_eq_false_iff_ne.mpr hc1]
          simp only [Bool.false_eq_true, if_false]
          omega

/-- A segment the splitter flushes has balanced brace counts. -/
theorem sepOK_balanced {seg : List Char} (h : sepOK seg = some true) :
    seg.count '{' = seg.count '}' := by
  by_contra hne
  unfold sepOK at h
  rw [if_neg hne] at h
  injection h with h'
  cases h'

theorem insertA_append {k v : List Char} {m : AttrMap}
    (h : containsA k m = false) : insertA k v m = m ++ [(k, v)] := by
  induction m with
  | nil => rfl
  | cons pr m' ih =>
    unfold containsA lookupA at h
    unfold insertA
    by_cases hk : pr.1 = k
    · rw [if_pos hk] at h
      simp at h
    · rw [if_neg hk] at h ⊢
      cases pr with
      | mk k' v' =>
        rw [ih h]
        rfl

theorem insertA_self {k v : List Char} {m : AttrMap}
    (h : lookupA k m = some v) : insertA k v m = m := by
  induction m with
  | nil => cases h
  | cons pr m' ih =>
    unfold lookupA at h
    unfold insertA
    by_cases hk : pr.1 = k
    · rw [if_pos hk] at h ⊢
      injection h with h'
      cases pr with
      | mk k' v' => simp only at hk h' ⊢; rw [hk, h']
    · rw [if_neg hk] at h ⊢
      cases pr with
      | mk k' v' => rw [ih h]

theorem lookupA_map_names (g : List Char → List Char) :
    ∀ (names : List (List Char)) (a : List Char),
      lookupA a (names.map (fun b => (b, g b)))
        = if a ∈ names then some (g a) else none := by
  intro names
  induction names with
  | nil => intro a; simp [lookupA]
  | cons b names' ih =>
    intro a
    rw [List.map_cons]
    unfold lookupA
    by_cases hb : b = a
    · subst hb
      simp
    · rw [if_neg hb, ih]
      by_cases hmem : a ∈ names'
      · rw [if_pos hmem, if_pos (by simp [hmem])]
      · rw [if_neg hmem, if_neg (fun hmm => by
          rcases List.mem_cons.mp hmm with h' | h'
          · exact hb h'.symm
          · exact hmem h')]

/-! ### Reconstruction of the accumulation loop on serialized text -/

/-- The segment accumulated by the loop over a run of pieces. -/
def joinPieces (cur : List Char) : List (List Char) → List Char
  | [] => cur
  | piece :: rest =>
    joinPieces (if cur = [] then piece else cur ++ ", ".data ++ piece) rest

def tailJoin : List (List Char) → List Char
  | [] => []
  | p :: rest => ", ".data ++ p ++ tailJoin rest

theorem joinPieces_cons (cur p : List Char) (rest : List (List Char)) :
    joinPieces cur (p :: rest)
      = joinPieces (if cur = [] then p else cur ++ ", ".data ++ p) rest := rfl

theorem tailJoin_cons (p : List Char) (rest : List (List Char)) :
    tailJoin (p :: rest) = ", ".data ++ p ++ tailJoin rest := rfl

theorem joinPieces_ne_nil {cur : List Char} (h : cur ≠ []) :
    ∀ P, joinPieces cur P = cur ++ tailJoin P := by
  intro P
  induction P generalizing cur with
  | nil => simp [joinPieces, tailJoin]
  | cons p rest ih =>
    rw [joinPieces_cons, if_neg h, ih (by simp), tailJoin_cons]
    simp

theorem rw_intercalate :
    ∀ (qs : List (List Char)) (q : List Char),
      (∀ p ∈ q :: qs, ',' ∉ p) →
      rw (List.intercalate [','] (q :: qs)) = q ++ tailJoin qs := by
  intro qs
  induction qs with
  | nil =>
    intro q hfree
    rw [show List.intercalate [','] [q] = q by
      simp [List.intercalate, List.intersperse]]
    rw [rw_no_comma (hfree q (by simp))]
    simp [tailJoin]
  | cons q' qs' ih =>
    intro q hfree
    rw [show List.intercalate [','] (q :: q' :: qs')
        = q ++ ',' :: List.intercalate [','] (q' :: qs') by
      simp [List.intercalate, List.intersperse]]
    rw [rw_append, rw_no_comma (hfree q (by simp)), rw_cons]
    rw [show rwChar ',' = [',', ' '] from rfl]
    rw [ih q' (fun p hp => hfree p (by
      rcases List.mem_cons.mp hp with rfl | hp'
      · simp
      · simp [hp']))]
    rw [tailJoin_cons]
    simp

theorem joinPieces_eq_rw {P : List (List Char)} {q : List Char}
    {qs : List (List Char)} (h : P = q :: qs) (hq : q ≠ [])
    (hfree : ∀ p ∈ P, ',' ∉ p) :
    joinPieces [] P = rw (List.intercalate [','] P) := by
  subst h
  rw [joinPieces_cons, if_pos rfl]
  rw [joinPieces_ne_nil hq, rw_intercalate qs q hfree]

theorem intercalate_take_drop (sep : Char) :
    ∀ (P : List (List Char)) (j : Nat), 0 < j → j < P.length →
      List.intercalate [sep] P
        = List.intercalate [sep] (P.take j) ++
            sep :: List.intercalate [sep] (P.drop j) := by
  intro P
  induction P with
  | nil => intro j h1 h2; simp at h2
  | cons p rest ih =>
    intro j h1 h2
    cases j with
    | zero => omega
    | succ j' =>
      have hrest : rest ≠ [] := by
        intro hr
        subst hr
        simp at h2
      cases hrest' : rest with
      | nil => exact absurd hrest' hrest
      | cons r0 rest' =>
        subst hrest'
        cases j' with
        | zero =>
          rw [show List.intercalate [sep] (p :: r0 :: rest')
              = p ++ sep :: List.intercalate [sep] (r0 :: rest') by
            simp [List.intercalate, List.intersperse]]
          simp [List.intercalate, List.intersperse]
        | succ j'' =>
          have hlt : j'' + 1 < (r0 :: rest').length := by
            simp at h2 ⊢
            omega
          have := ih (j'' + 1) (by omega) hlt
          rw [show List.intercalate [sep] (p :: r0 :: rest')
              = p ++ sep :: List.intercalate [sep] (r0 :: rest') by
            simp [List.intercalate, List.intersperse]]
          rw [this]
          rw [show (p :: r0 :: rest').take (j'' + 1 + 1)
              = p :: (r0 :: rest').take (j'' + 1) from rfl]
          rw [show (p :: r0 :: rest').drop (j'' + 1 + 1)
              = (r0 :: rest').drop (j'' + 1) from rfl]
          cases htk : (r0 :: rest').take (j'' + 1) with
          | nil => simp at htk
          | cons t0 ts =>
            rw [show List.intercalate [sep] (p :: t0 :: ts)
                = p ++ sep :: List.intercalate [sep] (t0 :: ts) by
              simp [List.intercalate, List.intersperse]]
            simp

theorem append_decomp_left {xs ys pre suf : List Char} {c : Char}
    (h : xs ++ ys = pre ++ c :: suf) (hc : c ∉ xs) :
    ∃ pre2, pre = xs ++ pre2 ∧ ys = pre2 ++ c :: suf := by
  induction xs generalizing pre with
  | nil => exact ⟨pre, rfl, h⟩
  | cons x xs' ih =>
    cases pre with
    | nil =>
      rw [List.nil_append] at h
      injection h with h1 h2
      exact absurd (h1 ▸ List.mem_cons_self x xs') hc
    | cons p pre' =>
      injection h with h1 h2
      subst h1
      obtain ⟨pre2, hp, hy⟩ := ih h2 (fun hm => hc (List.mem_cons_of_mem x hm))
      exact ⟨pre2, by rw [hp]; rfl, hy⟩

theorem append_decomp_last {v pre suf : List Char} {c d : Char}
    (h : v ++ [d] = pre ++ c :: suf) (hcd : c ≠ d) :
    ∃ suf2, v = pre ++ c :: suf2 ∧ suf = suf2 ++ [d] := by
  rcases List.eq_nil_or_concat suf with rfl | ⟨suf2, e, rfl⟩
  · exfalso
    have : v ++ [d] = pre ++ [c] := h
    have h2 := List.append_inj' this (by rfl)
    injection h2.2 with h3
    exact hcd h3.symm
  · simp only [List.concat_eq_append] at h ⊢
    rw [show pre ++ c :: (suf2 ++ [e]) = (pre ++ c :: suf2) ++ [e] by simp] at h
    have h2 := List.append_inj' h (by rfl)
    injection h2.2 with h3
    subst h3
    exact ⟨suf2, h2.1, rfl⟩

/-- `foldlM` over `Except` unfolds on cons. -/
theorem foldlM_cons_except (f : (List (List Char) × List Char) → List Char →
      Except PErr (List (List Char) × List Char))
    (b : List (List Char) × List Char) (a : List Char)
    (l : List (List Char)) :
    List.foldlM f b (a :: l)
      = f b a >>= fun b' => List.foldlM f b' l := by
  rfl

theorem mergeStep_eq (segs : List (List Char)) (cur item : List Char) :
    mergeStep (segs, cur) item
      = (match sepOK (if cur = [] then item else cur ++ ", ".data ++ item) with
        | none => .error .indexError
        | some true =>
          .ok (segs ++ [if cur = [] then item else cur ++ ", ".data ++ item],
            [])
        | some false =>
          .ok (segs, if cur = [] then item else cur ++ ", ".data ++ item)) :=
  rfl

/-- Flush composition: a run of pieces whose intermediate merges never flush
and whose full merge flushes contributes exactly one segment. -/
theorem mergeFold_flush :
    ∀ (P : List (List Char)) (segs : List (List Char)) (cur : List Char)
      (Q : List (List Char)),
      P ≠ [] →
      sepOK (joinPieces cur P) = some true →
      (∀ j, 0 < j → j < P.length →
        sepOK (joinPieces cur (P.take j)) = some false) →
      List.foldlM mergeStep (segs, cur) (P ++ Q)
        = List.foldlM mergeStep (segs ++ [joinPieces cur P], []) Q := by
  intro P
  induction P with
  | nil => intro segs cur Q h; exact absurd rfl h
  | cons p P' ih =>
    intro segs cur Q _ hflush hmid
    rw [List.cons_append, foldlM_cons_except, mergeStep_eq]
    cases P' with
    | nil =>
      have hj : joinPieces cur [p]
          = if cur = [] then p else cur ++ ", ".data ++ p := rfl
      rw [← hj, hflush]
      rfl
    | cons p' P'' =>
      have hj1 : joinPieces cur ((p :: p' :: P'').take 1)
          = if cur = [] then p else cur ++ ", ".data ++ p := rfl
      have h1 := hmid 1 (by omega) (by simp)
      rw [hj1] at h1
      rw [h1]
      show List.foldlM mergeStep
          (segs, if cur = [] then p else cur ++ ", ".data ++ p)
          ((p' :: P'') ++ Q) = _
      rw [ih segs (if cur = [] then p else cur ++ ", ".data ++ p) Q
        (by simp) hflush
        (fun j hj0 hjl => by
          have := hmid (j + 1) (by omega)
            (by simp only [List.length_cons] at hjl ⊢; omega)
          rwa [show (p :: p' :: P'').take (j + 1)
              = p :: (p' :: P'').take j from rfl] at this)]
      rfl

/-! ### Structure of the serialized entry -/

/-- The name-and-equals part of a serialized attribute line, preceded by the
newline that joins it to the previous line. -/
def npOf (a : List Char) : List Char :=
  '\n' :: "    ".data ++ pad10 a ++ " = ".data

/-- One serialized attribute line as seen by the comma splitter: its leading
newline, name part, and braced value, without the trailing comma. -/
def bodyOf (a v : List Char) : List Char := npOf a ++ '{' :: v ++ ['}']

/-- The inner content of the serialized entry after the anchor's comma. -/
def contentTail : List (List Char × List Char) → List Char
  | [] => ['\n']
  | pr :: rest => bodyOf pr.1 pr.2 ++ ',' :: contentTail rest

/-- Facts about canonical attribute names used by the round trip. -/
def attrNameOK (a : List Char) : Bool :=
  !(a == []) &&
  a.all (fun c => !pyIsSpace c && !(c == ',') && !(c == '"') &&
    !(c == '{') && !(c == '}') && !(c == '=') && !(c == '\n')) &&
  (lowerL a == a)

theorem attr_names_ok : ∀ a ∈ ATTRIBUTES, attrNameOK a = true := by decide

theorem category_facts : ∀ c ∈ CATEGORIES,
    (∀ ch ∈ c, pyIsSpace ch = false) ∧ (∀ ch ∈ c, ¬(ch = '{')) ∧
    (∀ ch ∈ c, ¬(ch = '}')) ∧ lowerL c = c ∧ c ≠ [] := by decide

theorem mem_npOf {a : List Char} {c : Char} (h : c ∈ npOf a) :
    c = '\n' ∨ c = ' ' ∨ c = '=' ∨ c ∈ a := by
  simp only [npOf, pad10, List.cons_append, List.mem_cons, List.mem_append,
    List.mem_replicate, List.not_mem_nil, or_false, false_or] at h
  tauto

theorem np_no_comma {a : List Char} (ha : a ∈ ATTRIBUTES) : ',' ∉ npOf a := by
  intro hmem
  have hfacts := attr_names_ok a ha
  simp only [attrNameOK, Bool.and_eq_true, List.all_eq_true] at hfacts
  rcases mem_npOf hmem with h | h | h | h
  · cases h
  · cases h
  · cases h
  · have := hfacts.1.2 ',' h
    simp at this

theorem np_no_quote {a : List Char} (ha : a ∈ ATTRIBUTES) : '"' ∉ npOf a := by
  intro hmem
  have hfacts := attr_names_ok a ha
  simp only [attrNameOK, Bool.and_eq_true, List.all_eq_true] at hfacts
  rcases mem_npOf hmem with h | h | h | h
  · cases h
  · cases h
  · cases h
  · have := hfacts.1.2 '"' h
    simp at this

theorem np_no_braces {a : List Char} (ha : a ∈ ATTRIBUTES) :
    (npOf a).count '{' = 0 ∧ (npOf a).count '}' = 0 := by
  have hfacts := attr_names_ok a ha
  simp only [attrNameOK, Bool.and_eq_true, List.all_eq_true] at hfacts
  constructor
  · rw [List.count_eq_zero]
    intro hmem
    rcases mem_npOf hmem with h | h | h | h
    · cases h
    · cases h
    · cases h
    · have := hfacts.1.2 '{' h
      simp at this
  · rw [List.count_eq_zero]
    intro hmem
    rcases mem_npOf hmem with h | h | h | h
    · cases h
    · cases h
    · cases h
    · have := hfacts.1.2 '}' h
      simp at this

theorem np_last_space (a : List Char) :
    ∃ X, npOf a = X ++ [' '] := by
  refine ⟨'\n' :: "    ".data ++ pad10 a ++ [' ', '='], ?_⟩
  simp [npOf]

theorem intercalate_lines (ls : List (List Char)) :
    ∀ hd, List.intercalate ['\n'] (hd :: ls ++ [['}']])
      = hd ++ (ls.map (fun l => '\n' :: l)).flatten ++ ['\n', '}'] := by
  induction ls with
  | nil => intro hd; simp [List.intercalate, List.intersperse]
  | cons l ls' ih =>
    intro hd
    rw [show (hd :: (l :: ls') ++ [['}']] : List (List Char))
        = hd :: (l :: (ls' ++ [['}']])) by simp]
    rw [show List.intercalate ['\n'] (hd :: l :: (ls' ++ [['}']]))
        = hd ++ '\n' :: List.intercalate ['\n'] (l :: (ls' ++ [['}']])) by
      simp [List.intercalate, List.intersperse]]
    rw [show (l :: (ls' ++ [['}']]) : List (List Char))
        = l :: ls' ++ [['}']] by simp]
    rw [ih l]
    simp

theorem contentTail_eq (pairs : List (List Char × List Char)) :
    ((pairs.map (fun pr => bodyOf pr.1 pr.2 ++ [','])).flatten ++ ['\n'] :
      List Char) = contentTail pairs := by
  induction pairs with
  | nil => rfl
  | cons pr rest ih =>
    simp only [List.map_cons, List.flatten_cons, contentTail, ← ih]
    simp

theorem serialize_structure (cat anc : List Char) (m : AttrMap) :
    serializeEntry cat anc m
      = '@' :: cat ++ '{' :: (anc ++ ',' :: contentTail (entryPairs m))
          ++ ['}'] := by
  unfold serializeEntry
  rw [intercalate_lines]
  rw [show (emittedNames m).map (fun a => attrLine a ((lookupA a m).getD []))
      = (entryPairs m).map (fun pr => attrLine pr.1 pr.2) by
    unfold entryPairs
    rw [List.map_map]
    rfl]
  rw [show ((entryPairs m).map (fun pr => attrLine pr.1 pr.2)).map
      (fun l => '\n' :: l)
      = (entryPairs m).map (fun pr => bodyOf pr.1 pr.2 ++ [',']) by
    rw [List.map_map]
    have hfn : ((fun l => '\n' :: l) ∘ fun pr : List Char × List Char =>
        attrLine pr.1 pr.2)
        = fun pr : List Char × List Char => bodyOf pr.1 pr.2 ++ [','] := by
      funext pr
      simp [attrLine, bodyOf, npOf]
    rw [hfn]]
  rw [← contentTail_eq]
  simp

/-! ### The splitter on serialized text -/

theorem rw_bodyOf {a : List Char} (ha : a ∈ ATTRIBUTES) (v : List Char) :
    rw (bodyOf a v) = npOf a ++ '{' :: rw v ++ ['}'] := by
  unfold bodyOf
  rw [show (npOf a ++ '{' :: v ++ ['}'] : List Char)
      = npOf a ++ ('{' :: (v ++ ['}'])) by simp]
  rw [rw_append, rw_no_comma (np_no_comma ha), rw_cons]
  rw [show rwChar '{' = ['{'] from rfl]
  rw [rw_append]
  rw [show rw ['}'] = ['}'] from rfl]
  simp

theorem quoteValueOK_exists {v : List Char} (h : quoteValueOK v = true) :
    ∃ n, quoteScanDir (some '{') (rw v ++ ['}']) = some n ∧ n % 2 = 0 := by
  unfold quoteValueOK at h
  cases hq : quoteScanDir (some '{') (rw v ++ ['}']) with
  | none => rw [hq] at h; cases h
  | some n =>
    rw [hq] at h
    exact ⟨n, rfl, by simpa using h⟩

theorem sepOK_rw_body {a v : List Char} (ha : a ∈ ATTRIBUTES)
    (hbal : v.count '{' = v.count '}') (hq : quoteValueOK v = true) :
    sepOK (rw (bodyOf a v)) = some true := by
  rw [rw_bodyOf ha]
  have hcount : (npOf a ++ '{' :: rw v ++ ['}']).count '{'
      = (npOf a ++ '{' :: rw v ++ ['}']).count '}' := by
    simp only [List.count_append, List.count_cons, List.count_nil,
      (np_no_braces ha).1, (np_no_braces ha).2,
      count_rw '{' (by decide) v, count_rw '}' (by decide) v]
    simp only [show (('{' : Char) == '{') = true by decide,
      show (('}' : Char) == '{') = false by decide,
      show (('{' : Char) == '}') = false by decide,
      show (('}' : Char) == '}') = true by decide,
      Bool.false_eq_true, if_true, if_false]
    omega
  unfold sepOK
  rw [if_pos hcount]
  rw [scanPieces_eq_dir]
  rw [show (npOf a ++ '{' :: rw v ++ ['}'] : List Char)
      = npOf a ++ ('{' :: (rw v ++ ['}'])) by simp]
  rw [quoteScanDir_append_quotefree (npOf a) (np_no_quote ha)]
  obtain ⟨X, hX⟩ := np_last_space a
  rw [hX, lastOr_concat]
  rw [show quoteScanDir (some ' ') ('{' :: (rw v ++ ['}']))
      = quoteScanDir (some '{') (rw v ++ ['}']) from rfl]
  obtain ⟨n, hn, heven⟩ := quoteValueOK_exists hq
  rw [hn]
  show some (decide (n % 2 = 0)) = some true
  rw [decide_eq_true heven]

theorem sepOK_rw_pre {a pre2 vsuf : List Char} (ha : a ∈ ATTRIBUTES)
    {v : List Char} (hbn : braceNonneg 0 v = true)
    (hdec : v = pre2 ++ ',' :: vsuf) :
    sepOK (npOf a ++ '{' :: rw pre2) = some false := by
  have hle := braceNonneg_prefix 0 hbn pre2 (',' :: vsuf) hdec
  have hne : (npOf a ++ '{' :: rw pre2).count '{'
      ≠ (npOf a ++ '{' :: rw pre2).count '}' := by
    rw [List.count_append, List.count_append, List.count_cons, List.count_cons]
    rw [(np_no_braces ha).1, (np_no_braces ha).2]
    rw [count_rw '{' (by decide) pre2, count_rw '}' (by decide) pre2]
    simp only [show (('{' : Char) == '{') = true by decide,
      show (('{' : Char) == '}') = false by decide, Bool.false_eq_true,
      if_true, if_false]
    omega
  unfold sepOK
  rw [if_neg hne]

theorem pySplit_body_head {a v : List Char} :
    ∃ p ps, pySplit ',' (bodyOf a v) = ('\n' :: p) :: ps := by
  unfold bodyOf npOf
  rw [show ('\n' :: "    ".data ++ pad10 a ++ " = ".data) ++ '{' :: v ++ ['}']
      = '\n' :: ("    ".data ++ pad10 a ++ " = ".data ++ '{' :: v ++ ['}'])
      by simp]
  cases hps : pySplit ','
      ("    ".data ++ pad10 a ++ " = ".data ++ '{' :: v ++ ['}']) with
  | nil => exact absurd hps (pySplit_ne_nil _ _)
  | cons p ps =>
    exact ⟨p, ps, pySplit_cons_ne ',' '\n' _ (by decide) p ps hps⟩

theorem joinPieces_body {a v : List Char} :
    joinPieces [] (pySplit ',' (bodyOf a v)) = rw (bodyOf a v) := by
  obtain ⟨p, ps, hps⟩ := pySplit_body_head (a := a) (v := v)
  rw [joinPieces_eq_rw hps (by simp)
    (fun q hq => pySplit_no_sep ',' (bodyOf a v) q hq)]
  rw [intercalate_pySplit]

/-- The splitter flushes a serialized attribute line exactly once, at its
final comma. -/
theorem body_splits (category : List Char) {a v : List Char}
    (ha : a ∈ ATTRIBUTES)
    (hv : valueClean category a v = true) :
    sepOK (joinPieces [] (pySplit ',' (bodyOf a v))) = some true ∧
    (∀ j, 0 < j → j < (pySplit ',' (bodyOf a v)).length →
      sepOK (joinPieces [] ((pySplit ',' (bodyOf a v)).take j))
        = some false) := by
  simp only [valueClean, Bool.and_eq_true] at hv
  obtain ⟨⟨⟨⟨⟨⟨hne, hbn⟩, hbal⟩, hq⟩, hrws⟩, hcap⟩, hallow⟩ := hv
  have hbal' : v.count '{' = v.count '}' := by simpa using hbal
  constructor
  · rw [joinPieces_body]
    exact sepOK_rw_body ha hbal' hq
  · intro j hj0 hjl
    set P := pySplit ',' (bodyOf a v) with hP
    obtain ⟨p, ps, hps⟩ := pySplit_body_head (a := a) (v := v)
    have htake : P.take j = ('\n' :: p) :: ps.take (j - 1) := by
      rw [hP, hps]
      cases j with
      | zero => omega
      | succ j' => rfl
    have hfree : ∀ q ∈ P.take j, ',' ∉ q :=
      fun q hq => pySplit_no_sep ',' (bodyOf a v) q
        (List.mem_of_mem_take hq)
    rw [joinPieces_eq_rw htake (by simp) hfree]
    have hdecomp : bodyOf a v
        = List.intercalate [','] (P.take j) ++
            ',' :: List.intercalate [','] (P.drop j) := by
      conv_lhs => rw [← intercalate_pySplit ',' (bodyOf a v), ← hP]
      exact intercalate_take_drop ',' P j hj0 hjl
    have hbody : (npOf a ++ ['{']) ++ (v ++ ['}'])
        = List.intercalate [','] (P.take j) ++
            ',' :: List.intercalate [','] (P.drop j) := by
      rw [← hdecomp]
      simp [bodyOf]
    obtain ⟨pre2, hpre, hrest⟩ := append_decomp_left hbody (by
      intro hmem
      rcases List.mem_append.mp hmem with h | h
      · exact np_no_comma ha h
      · simp at h)
    obtain ⟨vsuf, hv2, -⟩ := append_decomp_last hrest (by decide)
    rw [hpre]
    rw [show ((npOf a ++ ['{']) ++ pre2 : List Char)
        = npOf a ++ ('{' :: pre2) by simp]
    rw [rw_append, rw_no_comma (np_no_comma ha), rw_cons]
    rw [show rwChar '{' = ['{'] from rfl]
    rw [show (npOf a ++ (['{'] ++ rw pre2) : List Char)
        = npOf a ++ '{' :: rw pre2 by simp]
    exact sepOK_rw_pre ha hbn hv2

theorem mergeFold_tail :
    ∀ (pairs : List (List Char × List Char)) (segs : List (List Char))
      (category : List Char),
      (∀ pr ∈ pairs, pr.1 ∈ ATTRIBUTES ∧
        valueClean category pr.1 pr.2 = true) →
      List.foldlM mergeStep (segs, []) (pySplit ',' (contentTail pairs))
        = .ok (segs ++ pairs.map (fun pr => rw (bodyOf pr.1 pr.2))
            ++ [['\n']], []) := by
  intro pairs
  induction pairs with
  | nil =>
    intro segs category _
    rw [show contentTail [] = ['\n'] from rfl]
    rw [pySplit_no_sep_single (by decide)]
    show Except.ok (segs ++ [['\n']], ([] : List Char)) = _
    simp
  | cons pr rest ih =>
    intro segs category hall
    rw [show contentTail (pr :: rest)
        = bodyOf pr.1 pr.2 ++ ',' :: contentTail rest from rfl]
    rw [pySplit_append_sep]
    have hbs := body_splits category (hall pr (by simp)).1
      (hall pr (by simp)).2
    rw [mergeFold_flush (pySplit ',' (bodyOf pr.1 pr.2)) segs []
      (pySplit ',' (contentTail rest)) (pySplit_ne_nil _ _) hbs.1 hbs.2]
    rw [joinPieces_body]
    rw [ih (segs ++ [rw (bodyOf pr.1 pr.2)]) category
      (fun q hq => hall q (by simp [hq]))]
    simp

theorem mergeSegs_serialized (anc : List Char)
    (pairs : List (List Char × List Char)) (category : List Char)
    (hanc : anchorClean anc = true)
    (hall : ∀ pr ∈ pairs, pr.1 ∈ ATTRIBUTES ∧
      valueClean category pr.1 pr.2 = true) :
    mergeSegs (pySplit ',' (anc ++ ',' :: contentTail pairs))
      = .ok (anc :: pairs.map (fun pr => rw (bodyOf pr.1 pr.2))
          ++ [['\n']], []) := by
  simp only [anchorClean, Bool.and_eq_true, Bool.not_eq_true',
    beq_iff_eq] at hanc
  obtain ⟨⟨hnc, hsep⟩, hstrip⟩ := hanc
  have hnotmem : ',' ∉ anc := by simpa using hnc
  unfold mergeSegs
  rw [pySplit_append_sep, pySplit_no_sep_single hnotmem]
  rw [show ([anc] ++ pySplit ',' (contentTail pairs) : List (List Char))
      = anc :: pySplit ',' (contentTail pairs) from rfl]
  rw [foldlM_cons_except, mergeStep_eq]
  rw [show (if ([] : List Char) = [] then anc else [] ++ ", ".data ++ anc)
      = anc from rfl]
  rw [hsep]
  show List.foldlM mergeStep ([anc], []) (pySplit ',' (contentTail pairs)) = _
  rw [mergeFold_tail pairs [anc] category hall]
  rfl

/-! ### The attribute loop on serialized lines -/

theorem attr_name_props {a : List Char} (ha : a ∈ ATTRIBUTES) :
    a ≠ [] ∧ (∀ c ∈ a, pyIsSpace c = false) ∧ (∀ c ∈ a, ¬(c = '=')) ∧
      lowerL a = a := by
  have h := attr_names_ok a ha
  simp only [attrNameOK, Bool.and_eq_true, List.all_eq_true,
    Bool.not_eq_true', beq_iff_eq] at h
  obtain ⟨⟨h0, hall⟩, hlow⟩ := h
  refine ⟨?_, fun c hc => ?_, fun c hc => ?_, hlow⟩
  · intro he
    rw [he] at h0
    simp at h0
  · exact (hall c hc).1.1.1.1.1.1
  · intro he
    have h2 := (hall c hc).1.2
    rw [he] at h2
    simp at h2

theorem pyStrip_rw_body {a : List Char} (ha : a ∈ ATTRIBUTES)
    (v : List Char) :
    pyStrip (rw (bodyOf a v))
      = pad10 a ++ " = ".data ++ '{' :: rw v ++ ['}'] := by
  obtain ⟨hane, hnsp, -, -⟩ := attr_name_props ha
  rw [rw_bodyOf ha]
  rw [show (npOf a ++ '{' :: rw v ++ ['}'] : List Char)
      = ('\n' :: "    ".data)
        ++ (pad10 a ++ " = ".data ++ '{' :: rw v ++ ['}']) by
    simp [npOf]]
  rw [pyStrip_prepend_spaces (by decide)]
  apply pyStrip_eq_self
  · intro hd hh
    cases ha0 : a with
    | nil => exact absurd ha0 hane
    | cons a0 a' =>
      rw [show (pad10 a ++ " = ".data ++ '{' :: rw v ++ ['}'] : List Char)
          = a ++ (List.replicate (10 - a.length) ' '
            ++ " = ".data ++ '{' :: rw v ++ ['}']) by simp [pad10], ha0] at hh
      simp only [List.cons_append, List.head?_cons, Option.some.injEq] at hh
      exact hh ▸ hnsp a0 (ha0 ▸ List.mem_cons_self a0 a')
  · intro lt hh
    rw [show (pad10 a ++ " = ".data ++ '{' :: rw v ++ ['}'] : List Char)
        = (pad10 a ++ " = ".data ++ '{' :: rw v) ++ ['}'] by simp] at hh
    rw [List.getLast?_concat] at hh
    injection hh with hh'
    rw [← hh']
    decide

theorem eqSplitOf_body {a : List Char} (ha : a ∈ ATTRIBUTES)
    (v : List Char) :
    eqSplitOf (pad10 a ++ " = ".data ++ '{' :: rw v ++ ['}'])
      = (pad10 a ++ [' '], ' ' :: '{' :: rw v ++ ['}']) := by
  obtain ⟨-, -, hneq, -⟩ := attr_name_props ha
  have hdata : " = ".data = [' ', '=', ' '] := rfl
  have hsplit : (pad10 a ++ " = ".data ++ '{' :: rw v ++ ['}'] : List Char)
      = (pad10 a ++ [' ']) ++ '=' :: (' ' :: '{' :: rw v ++ ['}']) := by
    rw [hdata]
    simp
  have hfind : pyFind '=' (pad10 a ++ " = ".data ++ '{' :: rw v ++ ['}'])
      = some (pad10 a ++ [' ']).length := by
    rw [hsplit]
    apply pyFind_append
    intro x hx
    rcases List.mem_append.mp hx with hx | hx
    · unfold pad10 at hx
      rcases List.mem_append.mp hx with hx | hx
      · exact hneq x hx
      · rw [List.eq_of_mem_replicate hx]
        decide
    · rw [List.mem_singleton.mp hx]
      decide
  have hres : eqSplitOf (pad10 a ++ " = ".data ++ '{' :: rw v ++ ['}'])
      = ((pad10 a ++ " = ".data ++ '{' :: rw v ++ ['}']).take
          (pad10 a ++ [' ']).length,
        (pad10 a ++ " = ".data ++ '{' :: rw v ++ ['}']).drop
          ((pad10 a ++ [' ']).length + 1)) := by
    unfold eqSplitOf
    rw [hfind]
  rw [hres, hsplit]
  rw [List.take_left]
  rw [show (pad10 a ++ [' ']).length + 1
      = ((pad10 a ++ [' ']) ++ ['=']).length by simp]
  rw [show ((pad10 a ++ [' ']) ++ '=' :: (' ' :: '{' :: rw v ++ ['}'])
      : List Char)
      = ((pad10 a ++ [' ']) ++ ['=']) ++ (' ' :: '{' :: rw v ++ ['}']) by
    simp]
  rw [List.drop_left]

theorem stepAttr_rw_body {category a v : List Char} (ha : a ∈ ATTRIBUTES)
    (hv : valueClean category a v = true) (m : AttrMap) (ds : List Diag) :
    ∃ ds2, stepAttr category (m, ds) (rw (bodyOf a v))
      = .ok (insertA a v m, ds ++ ds2) := by
  simp only [valueClean, Bool.and_eq_true] at hv
  obtain ⟨⟨⟨⟨⟨⟨hne0, hbr⟩, hcnt⟩, hqv⟩, hrws⟩, hcap⟩, hallow⟩ := hv
  have hvne : v ≠ [] := by simpa using hne0
  have hval : collapseWS (pyStrip (rw v)) = v := by
    simpa [rwStable] using hrws
  obtain ⟨hane, hnsp, -, hlow⟩ := attr_name_props ha
  have hline := pyStrip_rw_body ha v
  have hsplit := eqSplitOf_body ha v
  have hname : lowerL (pyStrip (pad10 a ++ [' '])) = a := by
    have hsp : ∀ c ∈ (List.replicate (10 - a.length) ' ' ++ [' ']
        : List Char), pyIsSpace c = true := by
      intro c hc
      rcases List.mem_append.mp hc with hc | hc
      · rw [List.eq_of_mem_replicate hc]
        decide
      · rw [List.mem_singleton.mp hc]
        decide
    rw [show (pad10 a ++ [' '] : List Char)
        = a ++ (List.replicate (10 - a.length) ' ' ++ [' ']) by simp [pad10]]
    rw [pyStrip_append_spaces hane hnsp hsp, hlow]
  have hstrip2 : pyStrip (' ' :: '{' :: rw v ++ ['}'])
      = '{' :: rw v ++ ['}'] := by
    rw [show (' ' :: '{' :: rw v ++ ['}'] : List Char)
        = [' '] ++ ('{' :: rw v ++ ['}']) from rfl]
    rw [pyStrip_prepend_spaces (by decide)]
    apply pyStrip_eq_self
    · intro hd hh
      rw [show (('{' :: rw v ++ ['}']).head? : Option Char)
          = some '{' from rfl] at hh
      injection hh with hh'
      rw [← hh']
      decide
    · intro lt hh
      rw [show ('{' :: rw v ++ ['}'] : List Char)
          = ('{' :: rw v) ++ ['}'] from rfl, List.getLast?_concat] at hh
      injection hh with hh'
      rw [← hh']
      decide
  have hunw : unwrapValue ('{' :: rw v ++ ['}']) = pyStrip (rw v) := by
    show (if ('{' : Char) = '"' ∨ ('{' : Char) = '{'
        then pyStrip (rw v ++ ['}']).dropLast
        else '{' :: rw v ++ ['}']) = pyStrip (rw v)
    rw [if_pos (Or.inr rfl)]
    rw [show (rw v ++ ['}'] : List Char).dropLast = rw v from by
      rw [List.dropLast_concat]]
  have hAne : (pad10 a ++ " = ".data ++ '{' :: rw v ++ ['}'] : List Char)
      ≠ [] := by simp
  unfold stepAttr
  simp only [hline, hsplit, hname, hstrip2, if_neg hAne,
    if_neg (attributes_not_dropped a ha),
    if_neg (fun h : a ∉ ATTRIBUTES => h ha),
    if_neg (fun h : ¬ attrOnlyInOK a category = true => h hallow)]
  show ∃ ds2,
    (if collapseWS (unwrapValue ('{' :: rw v ++ ['}'])) = []
      then Except.ok (m, ds)
      else if pyIsUpper (collapseWS (unwrapValue ('{' :: rw v ++ ['}'])))
            = true ∧
          (pyWords (collapseWS (unwrapValue ('{' :: rw v ++ ['}'])))).length
            > 2
        then Except.ok
          (insertA a (capwords (collapseWS
            (unwrapValue ('{' :: rw v ++ ['}'])))) m, ds ++ [Diag.allUpper])
        else Except.ok
          (insertA a (collapseWS (unwrapValue ('{' :: rw v ++ ['}']))) m,
            ds))
      = Except.ok (insertA a v m, ds ++ ds2)
  rw [hunw, hval, if_neg hvne]
  by_cases hcase : pyIsUpper v = true ∧ (pyWords v).length > 2
  · have hcapeq : capwords v = v := by
      simp only [capStableB, Bool.or_eq_true, Bool.not_eq_true',
        Bool.and_eq_false_iff, beq_iff_eq, decide_eq_false_iff_not] at hcap
      rcases hcap with h | h
      · rcases h with h | h
        · exact absurd hcase.1 (by rw [h]; exact fun hx => by cases hx)
        · exact absurd hcase.2 h
      · exact h
    rw [if_pos hcase, hcapeq]
    exact ⟨[.allUpper], rfl⟩
  · rw [if_neg hcase]
    exact ⟨[], by simp⟩

theorem foldlM_cons_attr (f : (AttrMap × List Diag) → List Char →
      Except PErr (AttrMap × List Diag))
    (b : AttrMap × List Diag) (a : List Char) (l : List (List Char)) :
    List.foldlM f b (a :: l)
      = f b a >>= fun b' => List.foldlM f b' l := rfl

theorem containsA_append_one {k : List Char} {m : AttrMap}
    {pr : List Char × List Char} (h1 : containsA k m = false)
    (h2 : k ≠ pr.1) : containsA k (m ++ [pr]) = false := by
  obtain ⟨p1, p2⟩ := pr
  induction m with
  | nil =>
    unfold containsA
    rw [List.nil_append]
    show (if p1 = k then some p2 else lookupA k []).isSome = false
    rw [if_neg (fun he => h2 he.symm)]
    rfl
  | cons q m' ih =>
    obtain ⟨q1, q2⟩ := q
    have h1' : (if q1 = k then some q2 else lookupA k m').isSome = false := h1
    unfold containsA
    rw [List.cons_append]
    show (if q1 = k then some q2
        else lookupA k (m' ++ [(p1, p2)])).isSome = false
    by_cases hq : q1 = k
    · rw [if_pos hq] at h1'
      simp at h1'
    · rw [if_neg hq] at h1'
      rw [if_neg hq]
      exact ih h1'

/-- Folding the attribute step over the separator-rewritten serialized
bodies of fresh, clean attribute pairs extends the map by exactly those
pairs, in order. -/
theorem foldl_stepAttr_bodies (category : List Char) :
    ∀ (pairs : List (List Char × List Char)) (m0 : AttrMap) (ds0 : List Diag),
      (∀ pr ∈ pairs, pr.1 ∈ ATTRIBUTES ∧
        valueClean category pr.1 pr.2 = true) →
      (pairs.map Prod.fst).Nodup →
      (∀ pr ∈ pairs, containsA pr.1 m0 = false) →
      ∃ ds, List.foldlM (stepAttr category) (m0, ds0)
          (pairs.map (fun pr => rw (bodyOf pr.1 pr.2)))
        = .ok (m0 ++ pairs, ds0 ++ ds) := by
  intro pairs
  induction pairs with
  | nil =>
    intro m0 ds0 _ _ _
    refine ⟨[], ?_⟩
    show (Except.ok (m0, ds0) : Except PErr (AttrMap × List Diag))
      = Except.ok (m0 ++ [], ds0 ++ [])
    simp
  | cons pr rest ih =>
    intro m0 ds0 hall hnd hfresh
    obtain ⟨ha, hv⟩ := hall pr (List.mem_cons_self pr rest)
    obtain ⟨ds2, hstep⟩ := stepAttr_rw_body ha hv m0 ds0
    rw [List.map_cons] at hnd
    obtain ⟨hnotin, hndr⟩ := List.nodup_cons.mp hnd
    have hfresh' : ∀ q ∈ rest, containsA q.1 (m0 ++ [pr]) = false := by
      intro q hq
      refine containsA_append_one (hfresh q (List.mem_cons_of_mem pr hq)) ?_
      intro he
      exact hnotin (he ▸ List.mem_map_of_mem Prod.fst hq)
    obtain ⟨ds3, hrest⟩ := ih (m0 ++ [pr]) (ds0 ++ ds2)
      (fun q hq => hall q (List.mem_cons_of_mem pr hq)) hndr hfresh'
    refine ⟨ds2 ++ ds3, ?_⟩
    rw [List.map_cons, foldlM_cons_attr, hstep,
      show (Except.ok (insertA pr.1 pr.2 m0, ds0 ++ ds2)
          >>= fun b' => List.foldlM (stepAttr category) b'
            (rest.map (fun pr => rw (bodyOf pr.1 pr.2)))
        : Except PErr (AttrMap × List Diag))
        = List.foldlM (stepAttr category) (insertA pr.1 pr.2 m0, ds0 ++ ds2)
            (rest.map (fun pr => rw (bodyOf pr.1 pr.2))) from rfl,
      insertA_append (hfresh pr (List.mem_cons_self pr rest)), hrest]
    simp

theorem stepAttr_newline (category : List Char) (st : AttrMap × List Diag) :
    stepAttr category st ['\n'] = .ok st := rfl

/-- The whole attribute loop on a serialized entry's split segments (bodies
plus the final newline segment before the closing brace). -/
theorem foldl_stepAttr_all (category : List Char)
    (pairs : List (List Char × List Char))
    (hall : ∀ pr ∈ pairs, pr.1 ∈ ATTRIBUTES ∧
      valueClean category pr.1 pr.2 = true)
    (hnd : (pairs.map Prod.fst).Nodup) :
    ∃ ds, List.foldlM (stepAttr category) ([], [])
        (pairs.map (fun pr => rw (bodyOf pr.1 pr.2)) ++ [['\n']])
      = .ok (pairs, ds) := by
  obtain ⟨ds, hmain⟩ := foldl_stepAttr_bodies category pairs [] [] hall hnd
    (fun q _ => rfl)
  refine ⟨ds, ?_⟩
  rw [List.foldlM_append, hmain]
  show List.foldlM (stepAttr category) (([] : AttrMap) ++ pairs, [] ++ ds)
      [['\n']] = _
  rw [show (([] : AttrMap) ++ pairs, ([] : List Diag) ++ ds)
      = (pairs, ds) by simp]
  rw [show List.foldlM (stepAttr category) (pairs, ds) [['\n']]
      = stepAttr category (pairs, ds) ['\n'] >>= fun b' =>
          List.foldlM (stepAttr category) b' [] from rfl]
  rw [stepAttr_newline]
  rfl

/-! ### Stability of the correction pass on a clean map -/

theorem titleStep_id (category : List Char) (m : AttrMap) (ds : List Diag)
    (h : containsA "title".data m = true) :
    titleStep category (m, ds) = (m, ds) := by
  unfold titleStep
  rw [if_neg (not_not_intro h)]

theorem urlStep_id (stamp : List Char) (m : AttrMap) (ds : List Diag)
    (h1 : containsA "url".data m = false)
    (h2 : containsA "howpublished".data m = false) :
    urlStep stamp (m, ds) = (m, ds) := by
  unfold urlStep
  rw [if_neg (by rw [show containsA "url".data (m, ds).1
      = containsA "url".data m from rfl, h1,
    show containsA "howpublished".data (m, ds).1
      = containsA "howpublished".data m from rfl, h2]; simp)]

theorem fixPages_stable (m : AttrMap) (ds : List Diag)
    (h : pagesStable m = true) :
    ∃ d, fixPages (m, ds) = (m, ds ++ d) := by
  unfold pagesStable at h
  unfold fixPages
  cases hp : lookupA "pages".data m with
  | none =>
    refine ⟨[], ?_⟩
    show ((m, ds) : AttrMap × List Diag) = (m, ds ++ [])
    simp
  | some p =>
    rw [hp] at h
    have h' : (rePagesOne p ||
        match rePagesTwo p with
        | some g => (g.1 ++ "--".data ++ g.2) == p
        | none => true) = true := h
    by_cases h1 : rePagesOne p = true
    · refine ⟨[], ?_⟩
      show (if rePagesOne p = true then ((m, ds) : AttrMap × List Diag)
          else match rePagesTwo p with
            | some g => (insertA "pages".data (g.1 ++ "--".data ++ g.2) m, ds)
            | none => (m, ds ++ [Diag.pagesFormat]))
        = (m, ds ++ [])
      rw [if_pos h1]
      simp
    · rw [Bool.not_eq_true] at h1
      rw [h1] at h'
      simp only [Bool.false_or] at h'
      cases hg : rePagesTwo p with
      | none =>
        refine ⟨[Diag.pagesFormat], ?_⟩
        show (if rePagesOne p = true then ((m, ds) : AttrMap × List Diag)
            else match rePagesTwo p with
              | some g =>
                (insertA "pages".data (g.1 ++ "--".data ++ g.2) m, ds)
              | none => (m, ds ++ [Diag.pagesFormat]))
          = (m, ds ++ [Diag.pagesFormat])
        rw [if_neg (by rw [h1]; exact fun hx => by cases hx), hg]
      | some g =>
        rw [hg] at h'
        have h'' : ((g.1 ++ "--".data ++ g.2) == p) = true := h'
        have hgp : (g.1 ++ "--".data ++ g.2) = p := eq_of_beq h''
        refine ⟨[], ?_⟩
        show (if rePagesOne p = true then ((m, ds) : AttrMap × List Diag)
            else match rePagesTwo p with
              | some g =>
                (insertA "pages".data (g.1 ++ "--".data ++ g.2) m, ds)
              | none => (m, ds ++ [Diag.pagesFormat]))
          = (m, ds ++ [])
        rw [if_neg (by rw [h1]; exact fun hx => by cases hx), hg]
        show (insertA "pages".data (g.1 ++ "--".data ++ g.2) m, ds)
          = (m, ds ++ [])
        rw [hgp, insertA_self hp]
        simp

theorem monthStep_stable (shorten : Bool) (m : AttrMap) (ds : List Diag)
    (h : monthStable shorten m = true) :
    monthStep shorten (m, ds) = .ok (m, ds) := by
  unfold monthStable at h
  unfold monthStep
  cases hm : lookupA "month".data m with
  | none => rfl
  | some v =>
    rw [hm] at h
    have h' : (match parseMonthIdx (correctMonth3 (v.take 3)) with
        | none => false
        | some i =>
          ((if shorten then MONTHS_ABBREV else MONTHS_FULL).getD i []) == v)
        = true := h
    show (match parseMonthIdx (correctMonth3 (v.take 3)) with
        | none => (Except.error PErr.monthParse
            : Except PErr (AttrMap × List Diag))
        | some i => Except.ok (insertA "month".data
            (if shorten then MONTHS_ABBREV.getD i []
              else MONTHS_FULL.getD i []) m, ds))
      = Except.ok (m, ds)
    cases hi : parseMonthIdx (correctMonth3 (v.take 3)) with
    | none =>
      rw [hi] at h'
      have h'' : false = true := h'
      cases h''
    | some i =>
      rw [hi] at h'
      have h'' : (((if shorten then MONTHS_ABBREV else MONTHS_FULL).getD i [])
          == v) = true := h'
      have hveq : (if shorten then MONTHS_ABBREV.getD i []
          else MONTHS_FULL.getD i []) = v := by
        cases shorten
        · simpa using eq_of_beq h''
        · simpa using eq_of_beq h''
      show Except.ok (insertA "month".data
          (if shorten then MONTHS_ABBREV.getD i [] else MONTHS_FULL.getD i [])
          m, ds) = Except.ok (m, ds)
      rw [hveq, insertA_self hm]

theorem checkIntAttr_diag (name : List Char) (m : AttrMap) (ds : List Diag) :
    ∃ d, checkIntAttr name (m, ds) = (m, ds ++ d) := by
  unfold checkIntAttr
  cases hl : lookupA name m with
  | none =>
    refine ⟨[], ?_⟩
    show ((m, ds) : AttrMap × List Diag) = (m, ds ++ [])
    simp
  | some v =>
    by_cases hi : pyIntOK v = true
    · refine ⟨[], ?_⟩
      show (if pyIntOK v = true then ((m, ds) : AttrMap × List Diag)
          else (m, ds ++ [Diag.intFormat])) = (m, ds ++ [])
      rw [if_pos hi]
      simp
    · refine ⟨[Diag.intFormat], ?_⟩
      show (if pyIntOK v = true then ((m, ds) : AttrMap × List Diag)
          else (m, ds ++ [Diag.intFormat]))
        = (m, ds ++ [Diag.intFormat])
      rw [if_neg hi]

theorem intSteps_diag (m : AttrMap) (ds : List Diag) :
    ∃ d, intSteps (m, ds) = (m, ds ++ d) := by
  obtain ⟨d1, h1⟩ := checkIntAttr_diag "number".data m ds
  obtain ⟨d2, h2⟩ := checkIntAttr_diag "volume".data m (ds ++ d1)
  obtain ⟨d3, h3⟩ := checkIntAttr_diag "edition".data m ((ds ++ d1) ++ d2)
  refine ⟨(d1 ++ d2) ++ d3, ?_⟩
  unfold intSteps
  rw [h1, h2, h3]
  simp [List.append_assoc]

/-- The whole correction pass leaves a clean map unchanged and can only add
diagnostics. -/
theorem correctAttrs_stable (category : List Char) (shorten : Bool)
    (stamp : List Char) (m : AttrMap) (ds : List Diag)
    (htitle : containsA "title".data m = true)
    (hurl : containsA "url".data m = false)
    (hhp : containsA "howpublished".data m = false)
    (hpag : pagesStable m = true)
    (hmon : monthStable shorten m = true) :
    ∃ d, correctAttrs category shorten stamp (m, ds) = .ok (m, ds ++ d) := by
  obtain ⟨dp, hfp⟩ := fixPages_stable m ds hpag
  obtain ⟨di, hint⟩ := intSteps_diag m (ds ++ dp)
  refine ⟨dp ++ di, ?_⟩
  show (monthStep shorten (fixPages (urlStep stamp (titleStep category (m, ds))))
      >>= fun st => (Except.ok (intSteps st) : Except PErr (AttrMap × List Diag)))
    = Except.ok (m, ds ++ (dp ++ di))
  rw [titleStep_id category m ds htitle, urlStep_id stamp m ds hurl hhp, hfp,
    monthStep_stable shorten m (ds ++ dp) hmon]
  show (Except.ok (intSteps (m, ds ++ dp)) : Except PErr (AttrMap × List Diag))
    = Except.ok (m, ds ++ (dp ++ di))
  rw [hint]
  simp [List.append_assoc]

/-! ### Re-parsing the serialized entry -/

theorem lookup_entryPairs {m : AttrMap} {a : List Char}
    (ha : a ∈ ATTRIBUTES) :
    lookupA a (entryPairs m) = lookupA a m := by
  unfold entryPairs
  rw [lookupA_map_names (fun b => (lookupA b m).getD []) (emittedNames m) a]
  by_cases hmem : a ∈ emittedNames m
  · rw [if_pos hmem]
    have hmem' : a ∈ ATTRIBUTES.filter (fun b => containsA b m) := hmem
    have hc : containsA a m = true := (List.mem_filter.mp hmem').2
    unfold containsA at hc
    cases hl : lookupA a m with
    | none =>
      rw [hl] at hc
      simp at hc
    | some v => rfl
  · rw [if_neg hmem]
    cases hl : lookupA a m with
    | none => rfl
    | some v =>
      exfalso
      refine hmem (show a ∈ ATTRIBUTES.filter (fun b => containsA b m) from
        List.mem_filter.mpr ⟨ha, ?_⟩)
      unfold containsA
      rw [hl]
      rfl

theorem containsA_entryPairs (m : AttrMap) {a : List Char}
    (ha : a ∈ ATTRIBUTES) :
    containsA a (entryPairs m) = containsA a m := by
  unfold containsA
  rw [lookup_entryPairs ha]

theorem entryPairs_fst (m : AttrMap) :
    (entryPairs m).map Prod.fst = emittedNames m := by
  unfold entryPairs
  rw [List.map_map]
  rw [show (Prod.fst ∘ fun b : List Char => (b, (lookupA b m).getD []))
    = id from rfl, List.map_id]

theorem attributes_nodup : ATTRIBUTES.Nodup := by decide

theorem entryPairs_keys_nodup (m : AttrMap) :
    ((entryPairs m).map Prod.fst).Nodup := by
  rw [entryPairs_fst]
  exact attributes_nodup.filter _

theorem pagesStable_entryPairs (m : AttrMap) :
    pagesStable (entryPairs m) = pagesStable m := by
  unfold pagesStable
  rw [lookup_entryPairs (show "pages".data ∈ ATTRIBUTES by decide)]

theorem monthStable_entryPairs (shorten : Bool) (m : AttrMap) :
    monthStable shorten (entryPairs m) = monthStable shorten m := by
  unfold monthStable
  rw [lookup_entryPairs (show "month".data ∈ ATTRIBUTES by decide)]

theorem serializeEntry_entryPairs (category anchor : List Char)
    (m : AttrMap) :
    serializeEntry category anchor (entryPairs m)
      = serializeEntry category anchor m := by
  unfold serializeEntry
  have hnames : emittedNames (entryPairs m) = emittedNames m := by
    unfold emittedNames
    apply List.filter_congr
    intro a hamem
    exact containsA_entryPairs m hamem
  rw [hnames]
  have hmap : (emittedNames m).map
        (fun a => attrLine a ((lookupA a (entryPairs m)).getD []))
      = (emittedNames m).map (fun a => attrLine a ((lookupA a m).getD [])) := by
    apply List.map_congr_left
    intro a hamem
    have ha : a ∈ ATTRIBUTES := (List.mem_filter.mp
      (show a ∈ ATTRIBUTES.filter (fun b => containsA b m) from hamem)).1
    rw [lookup_entryPairs ha]
  rw [hmap]

theorem pyStrip_of_no_space {a : List Char}
    (h : ∀ c ∈ a, pyIsSpace c = false) : pyStrip a = a := by
  cases ha : a with
  | nil => rfl
  | cons c0 cr =>
    rw [ha] at h
    apply pyStrip_eq_self
    · intro hd hh
      rw [show ((c0 :: cr).head? : Option Char) = some c0 from rfl] at hh
      injection hh with h2
      rw [← h2]
      exact h c0 (List.mem_cons_self c0 cr)
    · intro lt hh
      exact h lt (mem_of_getLast?_eq hh)

theorem contentTail_balanced (category : List Char) :
    ∀ (pairs : List (List Char × List Char)),
      (∀ pr ∈ pairs, pr.1 ∈ ATTRIBUTES ∧
        valueClean category pr.1 pr.2 = true) →
      (contentTail pairs).count '{' = (contentTail pairs).count '}' := by
  intro pairs
  induction pairs with
  | nil => intro _; rfl
  | cons pr rest ih =>
    intro hall
    obtain ⟨ha, hv⟩ := hall pr (List.mem_cons_self pr rest)
    have hcnt : pr.2.count '{' = pr.2.count '}' := by
      simp only [valueClean, Bool.and_eq_true] at hv
      exact eq_of_beq hv.1.1.1.1.2
    have hnp := np_no_braces ha
    have ihr := ih (fun q hq => hall q (List.mem_cons_of_mem pr hq))
    show (bodyOf pr.1 pr.2 ++ ',' :: contentTail rest).count '{'
      = (bodyOf pr.1 pr.2 ++ ',' :: contentTail rest).count '}'
    rw [show bodyOf pr.1 pr.2 = npOf pr.1 ++ '{' :: pr.2 ++ ['}'] from rfl]
    rw [show (npOf pr.1 ++ '{' :: pr.2 ++ ['}'] ++ ',' :: contentTail rest
        : List Char)
        = npOf pr.1 ++ ['{'] ++ pr.2 ++ ['}'] ++ [','] ++ contentTail rest by
      simp]
    simp only [List.count_append]
    rw [hnp.1, hnp.2, hcnt, ihr]
    have c1 : List.count '{' ['{'] = 1 := rfl
    have c2 : List.count '}' ['{'] = 0 := rfl
    have c3 : List.count '{' ['}'] = 0 := rfl
    have c4 : List.count '}' ['}'] = 1 := rfl
    have c5 : List.count '{' [','] = 0 := rfl
    have c6 : List.count '}' [','] = 0 := rfl
    rw [c1, c2, c3, c4, c5, c6]
    omega

theorem serialized_counts {category X : List Char}
    (hcb1 : ∀ ch ∈ category, ¬(ch = '{'))
    (hcb2 : ∀ ch ∈ category, ¬(ch = '}'))
    (hX : X.count '{' = X.count '}') :
    ('@' :: category ++ '{' :: X ++ ['}']).count '{'
      = ('@' :: category ++ '{' :: X ++ ['}']).count '}' := by
  have hc1 : category.count '{' = 0 :=
    List.count_eq_zero.mpr (fun hm => hcb1 _ hm rfl)
  have hc2 : category.count '}' = 0 :=
    List.count_eq_zero.mpr (fun hm => hcb2 _ hm rfl)
  rw [show ('@' :: category ++ '{' :: X ++ ['}'] : List Char)
      = ['@'] ++ category ++ ['{'] ++ X ++ ['}'] by simp]
  simp only [List.count_append]
  rw [hc1, hc2, hX]
  have d1 : List.count '{' ['@'] = 0 := rfl
  have d2 : List.count '}' ['@'] = 0 := rfl
  have d3 : List.count '{' ['{'] = 1 := rfl
  have d4 : List.count '}' ['{'] = 0 := rfl
  have d5 : List.count '{' ['}'] = 0 := rfl
  have d6 : List.count '}' ['}'] = 1 := rfl
  rw [d1, d2, d3, d4, d5, d6]
  omega

theorem serialized_find {category X : List Char}
    (hcb : ∀ ch ∈ category, ¬(ch = '{')) :
    pyFind '{' ('@' :: category ++ '{' :: X ++ ['}'])
      = some (category.length + 1) := by
  rw [show ('@' :: category ++ '{' :: X ++ ['}'] : List Char)
      = ('@' :: category) ++ '{' :: (X ++ ['}']) by simp]
  rw [pyFind_append (by
    intro x hx
    rcases List.mem_cons.mp hx with h | h
    · rw [h]; decide
    · exact hcb x h)]
  simp

theorem serialized_strip {category X : List Char} :
    pyStrip ('@' :: category ++ '{' :: X ++ ['}'])
      = '@' :: category ++ '{' :: X ++ ['}'] := by
  apply pyStrip_eq_self
  · intro hd hh
    rw [show (('@' :: category ++ '{' :: X ++ ['}']).head? : Option Char)
        = some '@' from rfl] at hh
    injection hh with h2
    rw [← h2]
    decide
  · intro lt hh
    rw [show ('@' :: category ++ '{' :: X ++ ['}'] : List Char)
        = ('@' :: category ++ '{' :: X) ++ ['}'] by simp,
      List.getLast?_concat] at hh
    injection hh with h2
    rw [← h2]
    decide

theorem serialized_getLast {category X : List Char} :
    ('@' :: category ++ '{' :: X ++ ['}']).getLast? = some '}' := by
  rw [show ('@' :: category ++ '{' :: X ++ ['}'] : List Char)
      = ('@' :: category ++ '{' :: X) ++ ['}'] by simp,
    List.getLast?_concat]

theorem serialized_slice_cat {category X : List Char} :
    slice ('@' :: category ++ '{' :: X ++ ['}']) 1 (category.length + 1)
      = category := by
  unfold slice
  rw [show ('@' :: category ++ '{' :: X ++ ['}'] : List Char)
      = ('@' :: category) ++ ('{' :: X ++ ['}']) by simp]
  rw [show category.length + 1 = ('@' :: category).length by simp]
  rw [List.take_left]
  rfl

theorem serialized_slice_content {category X : List Char} :
    slice ('@' :: category ++ '{' :: X ++ ['}'])
      (category.length + 1 + 1)
      (('@' :: category ++ '{' :: X ++ ['}']).length - 1) = X := by
  unfold slice
  rw [show ('@' :: category ++ '{' :: X ++ ['}'] : List Char)
      = (('@' :: category ++ ['{']) ++ X) ++ ['}'] by simp]
  rw [show ((('@' :: category ++ ['{']) ++ X) ++ ['}']).length - 1
      = (('@' :: category ++ ['{']) ++ X).length by simp; omega]
  rw [List.take_left]
  rw [show category.length + 1 + 1 = ('@' :: category ++ ['{']).length by
    simp]
  rw [List.drop_left]

/-- `processEntryCore` on a well-shaped input reduces to the attribute
pipeline on the inner content. -/
theorem processEntryCore_unfolded (raw : List Char) (shorten : Bool)
    (stamp : List Char) (category X : List Char)
    (h1 : pyStrip raw = '@' :: category ++ '{' :: X ++ ['}'])
    (h2 : pyFind '{' ('@' :: category ++ '{' :: X ++ ['}'])
      = some (category.length + 1))
    (h3 : ('@' :: category ++ '{' :: X ++ ['}']).getLast? = some '}')
    (h4 : ('@' :: category ++ '{' :: X ++ ['}']).count '{'
      = ('@' :: category ++ '{' :: X ++ ['}']).count '}')
    (h5 : pyStrip (lowerL (slice ('@' :: category ++ '{' :: X ++ ['}']) 1
      (category.length + 1))) = category)
    (h6 : slice ('@' :: category ++ '{' :: X ++ ['}'])
      (category.length + 1 + 1)
      (('@' :: category ++ '{' :: X ++ ['}']).length - 1) = X)
    (hcat : category ∈ CATEGORIES) :
    processEntryCore raw shorten stamp
      = (mergeSegs (pySplit ',' X) >>= fun sl =>
          match sl.1 with
          | [] => Except.error PErr.indexError
          | a0 :: attrs =>
            attrs.foldlM (stepAttr category)
              ([], if sl.2 ≠ [] then [Diag.unmatchedBracket] else [])
              >>= fun md =>
            correctAttrs category shorten stamp md >>= fun md =>
              Except.ok (category, pyStrip a0, md.1, md.2)) := by
  have hcond : ¬(('@' : Char) ≠ '@'
      ∨ pyFind '{' ('@' :: category ++ '{' :: X ++ ['}']) = none
      ∨ ('@' :: category ++ '{' :: X ++ ['}']).getLast? ≠ some '}'
      ∨ ('@' :: category ++ '{' :: X ++ ['}']).count '{'
          ≠ ('@' :: category ++ '{' :: X ++ ['}']).count '}') := by
    rintro (h | h | h | h)
    · exact h rfl
    · rw [h2] at h
      cases h
    · exact h h3
    · exact h h4
  unfold processEntryCore
  rw [h1]
  show (if ('@' : Char) ≠ '@'
        ∨ pyFind '{' ('@' :: category ++ '{' :: X ++ ['}']) = none
        ∨ ('@' :: category ++ '{' :: X ++ ['}']).getLast? ≠ some '}'
        ∨ ('@' :: category ++ '{' :: X ++ ['}']).count '{'
            ≠ ('@' :: category ++ '{' :: X ++ ['}']).count '}'
      then (Except.error PErr.parsedEntry
        : Except PErr (List Char × List Char × AttrMap × List Diag))
      else
        match pyFind '{' ('@' :: category ++ '{' :: X ++ ['}']) with
        | none => Except.error PErr.parsedEntry
        | some i =>
          if pyStrip (lowerL
              (slice ('@' :: category ++ '{' :: X ++ ['}']) 1 i))
              ∉ CATEGORIES
          then Except.error PErr.dropComment
          else
            mergeSegs (pySplit ','
                (slice ('@' :: category ++ '{' :: X ++ ['}']) (i + 1)
                  (('@' :: category ++ '{' :: X ++ ['}']).length - 1)))
              >>= fun sl =>
              match sl.1 with
              | [] => Except.error PErr.indexError
              | a0 :: attrs =>
                attrs.foldlM (stepAttr (pyStrip (lowerL
                    (slice ('@' :: category ++ '{' :: X ++ ['}']) 1 i))))
                  ([], if sl.2 ≠ [] then [Diag.unmatchedBracket] else [])
                  >>= fun md =>
                correctAttrs (pyStrip (lowerL
                    (slice ('@' :: category ++ '{' :: X ++ ['}']) 1 i)))
                  shorten stamp md >>= fun md =>
                  Except.ok (pyStrip (lowerL
                    (slice ('@' :: category ++ '{' :: X ++ ['}']) 1 i)),
                    pyStrip a0, md.1, md.2))
      = (mergeSegs (pySplit ',' X) >>= fun sl =>
          match sl.1 with
          | [] => Except.error PErr.indexError
          | a0 :: attrs =>
            attrs.foldlM (stepAttr category)
              ([], if sl.2 ≠ [] then [Diag.unmatchedBracket] else [])
              >>= fun md =>
            correctAttrs category shorten stamp md >>= fun md =>
              Except.ok (category, pyStrip a0, md.1, md.2))
  rw [if_neg hcond, h2]
  show (if pyStrip (lowerL (slice ('@' :: category ++ '{' :: X ++ ['}']) 1
        (category.length + 1))) ∉ CATEGORIES
      then (Except.error PErr.dropComment
        : Except PErr (List Char × List Char × AttrMap × List Diag))
      else
        mergeSegs (pySplit ','
            (slice ('@' :: category ++ '{' :: X ++ ['}'])
              (category.length + 1 + 1)
              (('@' :: category ++ '{' :: X ++ ['}']).length - 1)))
          >>= fun sl =>
          match sl.1 with
          | [] => Except.error PErr.indexError
          | a0 :: attrs =>
            attrs.foldlM (stepAttr (pyStrip (lowerL
                (slice ('@' :: category ++ '{' :: X ++ ['}']) 1
                  (category.length + 1)))))
              ([], if sl.2 ≠ [] then [Diag.unmatchedBracket] else [])
              >>= fun md =>
            correctAttrs (pyStrip (lowerL
                (slice ('@' :: category ++ '{' :: X ++ ['}']) 1
                  (category.length + 1))))
              shorten stamp md >>= fun md =>
              Except.ok (pyStrip (lowerL
                (slice ('@' :: category ++ '{' :: X ++ ['}']) 1
                  (category.length + 1))),
                pyStrip a0, md.1, md.2))
      = _
  rw [h5, if_neg (not_not_intro hcat), h6]

/-- Re-running steps 0-5 on the serialized entry of a clean state recovers
category, anchor and the emitted attribute pairs. -/
theorem processEntryCore_serialized (category anchor : List Char)
    (m : AttrMap) (shorten : Bool) (stamp' : List Char)
    (hcat : category ∈ CATEGORIES)
    (hanc : anchorClean anchor = true)
    (hall : ∀ pr ∈ entryPairs m, pr.1 ∈ ATTRIBUTES ∧
      valueClean category pr.1 pr.2 = true)
    (hurl : containsA "url".data m = false)
    (hhp : containsA "howpublished".data m = false)
    (htitle : containsA "title".data m = true)
    (hpag : pagesStable m = true)
    (hmon : monthStable shorten m = true) :
    ∃ ds2, processEntryCore (serializeEntry category anchor m) shorten stamp'
      = .ok (category, anchor, entryPairs m, ds2) := by
  obtain ⟨hcsp, hcbl, hcbr, hclow, hcne⟩ := category_facts category hcat
  have hXbal : (anchor ++ ',' :: contentTail (entryPairs m)).count '{'
      = (anchor ++ ',' :: contentTail (entryPairs m)).count '}' := by
    have h := hanc
    simp only [anchorClean, Bool.and_eq_true, beq_iff_eq] at h
    have hancb : anchor.count '{' = anchor.count '}' := sepOK_balanced h.1.2
    have hct := contentTail_balanced category (entryPairs m) hall
    rw [show (anchor ++ ',' :: contentTail (entryPairs m) : List Char)
        = anchor ++ [','] ++ contentTail (entryPairs m) by simp]
    simp only [List.count_append]
    rw [hancb, hct, show List.count '{' ([','] : List Char) = 0 from rfl,
      show List.count '}' ([','] : List Char) = 0 from rfl]
  have h1 : pyStrip (serializeEntry category anchor m)
      = '@' :: category
          ++ '{' :: (anchor ++ ',' :: contentTail (entryPairs m)) ++ ['}'] := by
    rw [serialize_structure]
    exact serialized_strip
  have h5 : pyStrip (lowerL (slice ('@' :: category
      ++ '{' :: (anchor ++ ',' :: contentTail (entryPairs m)) ++ ['}'])
      1 (category.length + 1))) = category := by
    rw [serialized_slice_cat, hclow]
    exact pyStrip_of_no_space hcsp
  obtain ⟨ds1, hfold⟩ := foldl_stepAttr_all category (entryPairs m)
    hall (entryPairs_keys_nodup m)
  have htitleP : containsA "title".data (entryPairs m) = true := by
    rw [containsA_entryPairs m (by decide)]
    exact htitle
  have hurlP : containsA "url".data (entryPairs m) = false := by
    rw [containsA_entryPairs m (by decide)]
    exact hurl
  have hhpP : containsA "howpublished".data (entryPairs m) = false := by
    rw [containsA_entryPairs m (by decide)]
    exact hhp
  have hpagP : pagesStable (entryPairs m) = true := by
    rw [pagesStable_entryPairs]
    exact hpag
  have hmonP : monthStable shorten (entryPairs m) = true := by
    rw [monthStable_entryPairs]
    exact hmon
  obtain ⟨d2, hcorr⟩ := correctAttrs_stable category shorten stamp'
    (entryPairs m) ds1 htitleP hurlP hhpP hpagP hmonP
  refine ⟨ds1 ++ d2, ?_⟩
  rw [processEntryCore_unfolded (serializeEntry category anchor m) shorten
    stamp' category (anchor ++ ',' :: contentTail (entryPairs m))
    h1 (serialized_find hcbl) serialized_getLast
    (serialized_counts hcbl hcbr hXbal) h5 serialized_slice_content hcat]
  rw [mergeSegs_serialized anchor (entryPairs m) category hanc hall]
  show ((entryPairs m).map (fun pr => rw (bodyOf pr.1 pr.2))
        ++ [['\n']]).foldlM (stepAttr category) ([], [])
      >>= (fun md => correctAttrs category shorten stamp' md >>= fun md =>
        Except.ok (category, pyStrip anchor, md.1, md.2))
    = Except.ok (category, anchor, entryPairs m, ds1 ++ d2)
  rw [hfold]
  show correctAttrs category shorten stamp' (entryPairs m, ds1)
      >>= (fun md => Except.ok (category, pyStrip anchor, md.1, md.2))
    = Except.ok (category, anchor, entryPairs m, ds1 ++ d2)
  rw [hcorr]
  show Except.ok (category, pyStrip anchor, entryPairs m, ds1 ++ d2)
    = Except.ok (category, anchor, entryPairs m, ds1 ++ d2)
  have hstripanc : pyStrip anchor = anchor := by
    have h := hanc
    simp only [anchorClean, Bool.and_eq_true, beq_iff_eq] at h
    exact h.2
  rw [hstripanc]

/-- C4 (corrected): normalization is idempotent on accepted entries whose
normalized state is clean: when steps 0-5 accept `raw` with a category in the
vocabulary, a clean anchor, a stored title, attribute values that survive
re-parsing unchanged (nonempty, brace-balanced and quote-admissible in
serialized context, stable under the separator rewriting, whitespace
collapsing and the all-caps correction), no `url`/`howpublished` attribute
(whose move into `note` embeds the wall-clock stamp), and `pages`/`month`
values that are fixed points of their corrections, then feeding the
serialized output back through `process_entry` with the same shorten-month
setting and an arbitrary new stamp yields byte-identical output, with the
same anchor and title.  (Unconditionally the claim is false: see the
accompanying counterexample, where an accepted entry's brace-unbalanced
value makes the second run abort.) -/
theorem normalize_idempotent (raw : List Char) (shorten : Bool)
    (stamp : List Char) (category anchor : List Char) (m : AttrMap)
    (ds : List Diag)
    (hrun : processEntryCore raw shorten stamp
      = .ok (category, anchor, m, ds))
    (hcat : category ∈ CATEGORIES)
    (hanc : anchorClean anchor = true)
    (htitle : containsA "title".data m = true)
    (hall : ∀ pr ∈ entryPairs m, pr.1 ∈ ATTRIBUTES ∧
      valueClean category pr.1 pr.2 = true)
    (hurl : containsA "url".data m = false)
    (hhp : containsA "howpublished".data m = false)
    (hpag : pagesStable m = true)
    (hmon : monthStable shorten m = true) :
    ∀ stamp' : List Char, ∃ t ds2,
      process_entry raw shorten stamp
        = .ok (serializeEntry category anchor m, anchor, t, ds) ∧
      process_entry (serializeEntry category anchor m) shorten stamp'
        = .ok (serializeEntry category anchor m, anchor, t, ds2) := by
  intro stamp'
  obtain ⟨ds2', hcore2⟩ := processEntryCore_serialized category anchor m
    shorten stamp' hcat hanc hall hurl hhp htitle hpag hmon
  have hcont : (lookupA "title".data m).isSome = true := htitle
  cases hl : lookupA "title".data m with
  | none =>
    rw [hl] at hcont
    simp at hcont
  | some t =>
    refine ⟨t, ds2', ?_, ?_⟩
    · show (processEntryCore raw shorten stamp >>= fun r =>
        match lookupA "title".data r.2.2.1 with
        | none => Except.error PErr.keyError
        | some t => Except.ok (serializeEntry r.1 r.2.1 r.2.2.1, r.2.1, t,
            r.2.2.2)) = _
      rw [hrun]
      show (match lookupA "title".data m with
        | none => (Except.error PErr.keyError
            : Except PErr (List Char × List Char × List Char × List Diag))
        | some t => Except.ok (serializeEntry category anchor m, anchor, t,
            ds)) = _
      rw [hl]
    · show (processEntryCore (serializeEntry category anchor m) shorten
          stamp' >>= fun r =>
        match lookupA "title".data r.2.2.1 with
        | none => Except.error PErr.keyError
        | some t => Except.ok (serializeEntry r.1 r.2.1 r.2.2.1, r.2.1, t,
            r.2.2.2)) = _
      rw [hcore2]
      show (match lookupA "title".data (entryPairs m) with
        | none => (Except.error PErr.keyError
            : Except PErr (List Char × List Char × List Char × List Diag))
        | some t => Except.ok (serializeEntry category anchor (entryPairs m),
            anchor, t, ds2')) = _
      rw [lookup_entryPairs (show "title".data ∈ ATTRIBUTES by decide), hl]
      show Except.ok (serializeEntry category anchor (entryPairs m), anchor,
          t, ds2') = _
      rw [serializeEntry_entryPairs]

/-- C4, witness: a concrete clean entry round-trips byte-identically under a
fresh stamp on the second run. -/
theorem normalize_idempotent_witness :
    ∃ t ds2,
      process_entry "@article\x7ba, title = \x7bNice\x7d\x7d".data false []
        = .ok (serializeEntry "article".data "a".data
            [("title".data, "Nice".data)], "a".data, t, []) ∧
      process_entry (serializeEntry "article".data "a".data
          [("title".data, "Nice".data)]) false "x".data
        = .ok (serializeEntry "article".data "a".data
            [("title".data, "Nice".data)], "a".data, t, ds2) :=
  normalize_idempotent "@article\x7ba, title = \x7bNice\x7d\x7d".data false []
    "article".data "a".data [("title".data, "Nice".data)] []
    (by rfl) (by decide) (by decide) (by decide) (by decide) (by decide)
    (by decide) (by decide) (by decide) "x".data
